import Mathlib

/-!
# Verification of the reddit-harvest core pipeline

A shallow embedding of the harvest-filter-dedupe-and-analysis pipeline of the
`reddit-harvest` repository, together with proofs of the specified properties.

JavaScript strings are modelled as `List Char` (written `JStr`); machine
numbers that the code only ever uses at integral values (scores, comment
counts, Unix timestamps) are modelled as `Int`; fallible operations return
`Option` or `Except`.
-/

/-- JavaScript strings are modelled as lists of characters. -/
abbrev JStr := List Char

/-! ## Text Chunker (`src/utils.js`, `chunkStringBySize`) -/

/-- Loop body of `chunkStringBySize`: `while (i < s.length) chunks.push(s.slice(i, i + maxChars)); i += maxChars`.
The JavaScript loop does not terminate for `maxChars = 0` (the function is only
ever called with a positive size); the model returns `[]` in that unreachable case. -/
def chunkGo (m : Nat) (l : JStr) : List JStr :=
  if m = 0 then []
  else if l.isEmpty then []
  else l.take m :: chunkGo m (l.drop m)
termination_by l.length
decreasing_by
  simp only [List.length_drop]
  rename_i hm hl
  have h1 : 0 < m := Nat.pos_of_ne_zero hm
  have h2 : 0 < l.length := by
    cases l with
    | nil => simp at hl
    | cons a as => simp
  omega

/-- `chunkStringBySize(input, maxChars)` from `src/utils.js`:
`const s = String(input ?? ""); if (s.length <= maxChars) return [s];` then the
slicing loop.  A `null`/`undefined` input is coerced to the empty string. -/
def chunkStringBySize (input : Option JStr) (maxChars : Nat) : List JStr :=
  let s := input.getD []
  if s.length ≤ maxChars then [s] else chunkGo maxChars s

/-! ## JSON values (model of the JavaScript `JSON` builtin)

`formatPostsToJSONL`/`parseJSONL` in `src/formatters.js` and the stage-2/3
fallbacks in the analysis pipeline delegate to the platform's `JSON.stringify`
and `JSON.parse`.  These builtins are modelled concretely: `JVal` is the JSON
value tree (numbers restricted to the integral values this system produces),
`stringifyJVal` mirrors `JSON.stringify` (insertion-ordered keys, standard
string escaping), and `parseVal` is a recursive-descent model of `JSON.parse`
covering whitespace-free documents (which includes every `stringify` output).
-/

/-- The double-quote character. -/
def qm : Char := Char.ofNat 34

/-- The backslash character. -/
def bsl : Char := Char.ofNat 92

/-- Opening curly brace. -/
def lbr : Char := Char.ofNat 123

/-- Closing curly brace. -/
def rbr : Char := Char.ofNat 125

/-- Line feed. -/
def nlc : Char := Char.ofNat 10

/-- Carriage return. -/
def crc : Char := Char.ofNat 13

/-- Horizontal tab. -/
def tabc : Char := Char.ofNat 9

/-- Backspace. -/
def bspc : Char := Char.ofNat 8

/-- Form feed. -/
def ffc : Char := Char.ofNat 12

/-- JSON values.  Numbers are modelled as integers: every number this system
serializes (scores, comment counts) is integral. -/
inductive JVal where
  | str (s : JStr)
  | num (n : Int)
  | bool (b : Bool)
  | null
  | arr (elems : List JVal)
  | obj (members : List (JStr × JVal))

/-- Decimal digit character for `n < 10`. -/
def digitChar (n : Nat) : Char := Char.ofNat (48 + n)

/-- Lowercase hexadecimal digit character for `n < 16`. -/
def hexChar (n : Nat) : Char := if n < 10 then Char.ofNat (48 + n) else Char.ofNat (87 + n)

/-- Is `c` a decimal digit? -/
def isDigitChar (c : Char) : Bool := 48 ≤ c.toNat && c.toNat ≤ 57

/-- Numeric value of a decimal digit character. -/
def digitVal (c : Char) : Nat := c.toNat - 48

/-- Numeric value of a hexadecimal digit character, `none` for other characters. -/
def hexVal (c : Char) : Option Nat :=
  if 48 ≤ c.toNat ∧ c.toNat ≤ 57 then some (c.toNat - 48)
  else if 97 ≤ c.toNat ∧ c.toNat ≤ 102 then some (c.toNat - 87)
  else if 65 ≤ c.toNat ∧ c.toNat ≤ 70 then some (c.toNat - 55)
  else none

/-- Digit rendering worker with an explicit recursion budget (structural, so
that the kernel can evaluate it). -/
def natToCharsGo : Nat → Nat → JStr
  | 0, _ => []
  | fuel + 1, n =>
    if n < 10 then [digitChar n]
    else natToCharsGo fuel (n / 10) ++ [digitChar (n % 10)]

/-- Decimal rendering of a natural number, as JavaScript renders integral
numbers. -/
def natToChars (n : Nat) : JStr := natToCharsGo (n + 1) n

/-- Decimal rendering of an integer (JavaScript template/`JSON.stringify`
rendering of an integral number). -/
def intToChars (n : Int) : JStr :=
  if n < 0 then '-' :: natToChars n.natAbs else natToChars n.toNat

/-- `JSON.stringify` escaping of one character inside a string literal. -/
def escapeChar (c : Char) : JStr :=
  if c = qm then [bsl, qm]
  else if c = bsl then [bsl, bsl]
  else if c = bspc then [bsl, 'b']
  else if c = ffc then [bsl, 'f']
  else if c = nlc then [bsl, 'n']
  else if c = crc then [bsl, 'r']
  else if c = tabc then [bsl, 't']
  else if c.toNat < 32 then [bsl, 'u', '0', '0', hexChar (c.toNat / 16), hexChar (c.toNat % 16)]
  else [c]

/-- `JSON.stringify` escaping of a string body. -/
def escapeStr (s : JStr) : JStr := (s.map escapeChar).flatten

mutual

/-- Model of `JSON.stringify` (no spacing argument): object keys in
insertion order, no insignificant whitespace. -/
def stringifyJVal : JVal → JStr
  | .str s => qm :: escapeStr s ++ [qm]
  | .num n => intToChars n
  | .bool b => if b then ['t', 'r', 'u', 'e'] else ['f', 'a', 'l', 's', 'e']
  | .null => ['n', 'u', 'l', 'l']
  | .arr es => '[' :: stringifyElems es ++ [']']
  | .obj ms => lbr :: stringifyMembers ms ++ [rbr]

/-- Comma-separated renderings of array elements. -/
def stringifyElems : List JVal → JStr
  | [] => []
  | [e] => stringifyJVal e
  | e :: e2 :: es => stringifyJVal e ++ ',' :: stringifyElems (e2 :: es)

/-- Comma-separated renderings of object members. -/
def stringifyMembers : List (JStr × JVal) → JStr
  | [] => []
  | [m] => qm :: escapeStr m.1 ++ qm :: ':' :: stringifyJVal m.2
  | m :: m2 :: ms =>
      (qm :: escapeStr m.1 ++ qm :: ':' :: stringifyJVal m.2) ++ ',' :: stringifyMembers (m2 :: ms)

end

mutual

/-- Recursion budget sufficient for `parseVal` to consume a value. -/
def jvalFuel : JVal → Nat
  | .arr es => 1 + elemsFuel es
  | .obj ms => 1 + membersFuel ms
  | _ => 1

/-- Recursion budget for a nonempty element list. -/
def elemsFuel : List JVal → Nat
  | [] => 0
  | e :: es => 1 + max (jvalFuel e) (elemsFuel es)

/-- Recursion budget for a nonempty member list. -/
def membersFuel : List (JStr × JVal) → Nat
  | [] => 0
  | m :: ms => 1 + max (jvalFuel m.2) (membersFuel ms)

end

/-- Decoded character of a one-letter escape sequence. -/
def escSimple (e : Char) : Option Char :=
  if e = qm then some qm
  else if e = bsl then some bsl
  else if e = '/' then some '/'
  else if e = 'b' then some bspc
  else if e = 'f' then some ffc
  else if e = 'n' then some nlc
  else if e = 'r' then some crc
  else if e = 't' then some tabc
  else none

/-- Parse the body of a JSON string literal (the input starts just after the
opening quote); returns the decoded characters and the input after the
closing quote. -/
def parseStrChars : JStr → Option (JStr × JStr)
  | [] => none
  | c :: r =>
    if c = qm then some ([], r)
    else if c = bsl then
      match r with
      | [] => none
      | e :: r2 =>
        if e = 'u' then
          match r2 with
          | h1 :: h2 :: h3 :: h4 :: r3 =>
            match hexVal h1, hexVal h2, hexVal h3, hexVal h4 with
            | some a, some b, some c2, some d2 =>
                (parseStrChars r3).map
                  (fun p => (Char.ofNat (4096 * a + 256 * b + 16 * c2 + d2) :: p.1, p.2))
            | _, _, _, _ => none
          | _ => none
        else
          match escSimple e with
          | some d => (parseStrChars r2).map (fun p => (d :: p.1, p.2))
          | none => none
    else (parseStrChars r).map (fun p => (c :: p.1, p.2))

/-- Greedily parse a run of decimal digits and its value. -/
def parseNatFrom (l : JStr) : Option (Nat × JStr) :=
  let ds := l.takeWhile isDigitChar
  if ds.isEmpty then none
  else some (ds.foldl (fun a c => a * 10 + digitVal c) 0, l.dropWhile isDigitChar)

/-- Parse a JSON number (restricted to the integral numbers this system
produces). -/
def parseNum (l : JStr) : Option (JVal × JStr) :=
  match l with
  | [] => none
  | c :: r =>
    if c = '-' then (parseNatFrom r).map (fun p => (JVal.num (-(p.1 : Int)), p.2))
    else (parseNatFrom l).map (fun p => (JVal.num (p.1 : Int), p.2))

mutual

/-- Recursive-descent model of `JSON.parse` on whitespace-free documents,
with an explicit recursion budget. -/
def parseVal : Nat → JStr → Option (JVal × JStr)
  | 0, _ => none
  | fuel + 1, l =>
    match l with
    | [] => none
    | c :: r =>
      if c = qm then (parseStrChars r).map (fun p => (JVal.str p.1, p.2))
      else if c = '[' then
        match r with
        | [] => none
        | d :: r2 =>
          if d = ']' then some (JVal.arr [], r2)
          else (parseElems fuel (d :: r2)).map (fun p => (JVal.arr p.1, p.2))
      else if c = lbr then
        match r with
        | [] => none
        | d :: r2 =>
          if d = rbr then some (JVal.obj [], r2)
          else (parseMembers fuel (d :: r2)).map (fun p => (JVal.obj p.1, p.2))
      else if c = 'n' then
        match r with
        | u :: l1 :: l2 :: r2 =>
            if u = 'u' ∧ l1 = 'l' ∧ l2 = 'l' then some (JVal.null, r2) else none
        | _ => none
      else if c = 't' then
        match r with
        | a :: b :: d :: r2 =>
            if a = 'r' ∧ b = 'u' ∧ d = 'e' then some (JVal.bool true, r2) else none
        | _ => none
      else if c = 'f' then
        match r with
        | a :: b :: d :: e :: r2 =>
            if a = 'a' ∧ b = 'l' ∧ d = 's' ∧ e = 'e' then some (JVal.bool false, r2) else none
        | _ => none
      else parseNum (c :: r)

/-- Parse the elements of a nonempty JSON array, consuming the closing
bracket. -/
def parseElems : Nat → JStr → Option (List JVal × JStr)
  | 0, _ => none
  | fuel + 1, l =>
    match parseVal fuel l with
    | none => none
    | some (v, r) =>
      match r with
      | [] => none
      | c :: r2 =>
        if c = ',' then (parseElems fuel r2).map (fun p => (v :: p.1, p.2))
        else if c = ']' then some ([v], r2)
        else none

/-- Parse the members of a nonempty JSON object, consuming the closing
brace. -/
def parseMembers : Nat → JStr → Option (List (JStr × JVal) × JStr)
  | 0, _ => none
  | fuel + 1, l =>
    match l with
    | [] => none
    | c :: r =>
      if c = qm then
        match parseStrChars r with
        | none => none
        | some (k, r1) =>
          match r1 with
          | [] => none
          | d :: r2 =>
            if d = ':' then
              match parseVal fuel r2 with
              | none => none
              | some (v, r3) =>
                match r3 with
                | [] => none
                | e :: r4 =>
                  if e = ',' then (parseMembers fuel r4).map (fun p => ((k, v) :: p.1, p.2))
                  else if e = rbr then some ([(k, v)], r4)
                  else none
            else none
      else none

end

/-- Model of `JSON.parse` on a whole document: the parse must consume the
entire input.  `none` models a thrown `SyntaxError`. -/
def jsonParse (l : JStr) : Option JVal :=
  match parseVal (l.length + 1) l with
  | some (j, r) => if r.isEmpty then some j else none
  | none => none

/-! ## Line-delimited formatter (`src/formatters.js`) -/

/-- JavaScript whitespace (the characters `String.prototype.trim` strips). -/
def isJsWs (c : Char) : Bool :=
  c.toNat = 9 || c.toNat = 10 || c.toNat = 11 || c.toNat = 12 || c.toNat = 13 ||
  c.toNat = 32 || c.toNat = 160 || c.toNat = 0x1680 ||
  (0x2000 ≤ c.toNat && c.toNat ≤ 0x200A) ||
  c.toNat = 0x2028 || c.toNat = 0x2029 || c.toNat = 0x202F || c.toNat = 0x205F ||
  c.toNat = 0x3000 || c.toNat = 0xFEFF

/-- Model of `String.prototype.trim`. -/
def jsTrim (l : JStr) : JStr :=
  ((l.dropWhile isJsWs).reverse.dropWhile isJsWs).reverse

/-- Model of `String.prototype.split` with a one-character separator. -/
def splitOnChar (sep : Char) : JStr → List JStr
  | [] => [[]]
  | c :: r =>
    if c = sep then [] :: splitOnChar sep r
    else
      match splitOnChar sep r with
      | [] => [[c]]
      | x :: xs => (c :: x) :: xs

/-- A normalized comment as built by `expandPostComments` in
`src/redditHarvest.js`. -/
structure RComment where
  id : JStr
  author : JStr
  score : Int
  body : JStr
  created : JStr

/-- The normalized record (`postData`) built by `harvestSubreddit` in
`src/redditHarvest.js`.  `commentsError` is `some` exactly when the
`commentsError` property was assigned. -/
structure Post where
  id : JStr
  subreddit : JStr
  title : JStr
  author : JStr
  created : JStr
  score : Int
  numComments : Int
  url : JStr
  permalink : JStr
  selftext : JStr
  comments : List RComment
  commentsError : Option JStr

/-- JSON form of a normalized comment (property insertion order of
`expandPostComments`). -/
def commentToJVal (c : RComment) : JVal :=
  JVal.obj [("id".data, JVal.str c.id), ("author".data, JVal.str c.author),
    ("score".data, JVal.num c.score), ("body".data, JVal.str c.body),
    ("created".data, JVal.str c.created)]

/-- JSON form of a normalized record (property insertion order of `postData`;
`commentsError`, assigned later when reply expansion failed, comes last and
only when present). -/
def postToJVal (p : Post) : JVal :=
  JVal.obj
    ([("id".data, JVal.str p.id), ("subreddit".data, JVal.str p.subreddit),
      ("title".data, JVal.str p.title), ("author".data, JVal.str p.author),
      ("created".data, JVal.str p.created), ("score".data, JVal.num p.score),
      ("numComments".data, JVal.num p.numComments), ("url".data, JVal.str p.url),
      ("permalink".data, JVal.str p.permalink), ("selftext".data, JVal.str p.selftext),
      ("comments".data, JVal.arr (p.comments.map commentToJVal))]
      ++ (match p.commentsError with
          | some e => [("commentsError".data, JVal.str e)]
          | none => []))

/-- Model of `Array.prototype.join` with a fixed separator string. -/
def joinWith (sep : JStr) : List JStr → JStr
  | [] => []
  | [x] => x
  | x :: y :: xs => x ++ sep ++ joinWith sep (y :: xs)

/-- `formatPostsToJSONL` from `src/formatters.js`:
`posts.map((p) => JSON.stringify(p)).join("\n") + "\n"`. -/
def formatPostsToJSONL (posts : List Post) : JStr :=
  joinWith [nlc] (posts.map (fun p => stringifyJVal (postToJVal p))) ++ [nlc]

/-- First characters a `stringifyJVal` output can start with. -/
def goodHead (c : Char) : Bool :=
  c = qm || c = '-' || c = 't' || c = 'f' || c = 'n' || c = '[' || c = lbr || isDigitChar c

/-- The continuation after a serialized value never starts with a digit
(so the greedy number parser stops exactly at the value boundary). -/
def HeadNotDigit (l : JStr) : Prop :=
  ∀ c, l.head? = some c → isDigitChar c = false

/-- `parseJSONL` from `src/formatters.js`: split on newlines, keep lines whose
trim is nonempty, `JSON.parse` each.  `none` models a thrown parse error. -/
def parseJSONL (content : JStr) : Option (List JVal) :=
  ((splitOnChar nlc content).filter (fun line => !(jsTrim line).isEmpty)).mapM jsonParse

/-- A concrete normalized record with an empty replies list (used to
instantiate the formatter round-trip at a specific input). -/
def samplePost1 : Post :=
  { id := "a1".data, subreddit := "startups".data, title := "How I found users".data,
    author := "founder".data, created := "2024-01-15T10:30:00.000Z".data, score := 42,
    numComments := 15, url := "https://reddit.com/r/startups/comments/a1".data,
    permalink := "/r/startups/comments/a1/".data, selftext := "Here is my story".data,
    comments := [], commentsError := none }

/-- A concrete normalized record with a populated replies list. -/
def samplePost2 : Post :=
  { id := "b2".data, subreddit := "startups".data, title := "Quoting \"this\"".data,
    author := "dev".data, created := "".data, score := -3, numComments := 1,
    url := "".data, permalink := "/r/startups/comments/b2/".data,
    selftext := "line one\nline two".data,
    comments := [{ id := "c1".data, author := "bob".data, score := 2,
                   body := "nice\tpost".data, created := "2024-01-16T00:00:00.000Z".data }],
    commentsError := none }

/-! ## Analysis pipeline parse fallbacks (`src/openaiAnalyze.js`) -/

/-- Stage 2 (`extractTags`) result handling: `try JSON.parse(response)` with a
tag-set-shaped error placeholder carrying the raw response on parse failure. -/
def extractTagsResult (response : JStr) : JVal :=
  match jsonParse response with
  | some j => j
  | none => JVal.obj [("error".data, JVal.str "Failed to parse tags".data),
      ("raw".data, JVal.str response)]

/-- Stage 3 (`generateOpportunities`) result handling: same fallback shape,
wrapped as a one-element array. -/
def generateOpportunitiesResult (response : JStr) : JVal :=
  match jsonParse response with
  | some j => j
  | none => JVal.arr [JVal.obj [("error".data, JVal.str "Failed to parse opportunities".data),
      ("raw".data, JVal.str response)]]

/-! ## Dedupe index (`src/dedupe.js`)

The on-disk state of `.harvest-index.json` is modelled as `DiskState`:
`absent` (no file), `corrupt` (unreadable or unparseable content), or `doc`
(a parsed document whose `posts` object is an insertion-ordered association
list from record id to the `harvestedAt` stamp).
-/

/-- On-disk state of the dedupe index document. -/
inductive DiskState where
  | absent
  | corrupt
  | doc (posts : List (JStr × JStr))

/-- `loadDedupeIndex(outDir)`: read the file, `JSON.parse`, take
`Object.keys(data.posts || ...)`; any failure yields the empty set
(the function never raises). -/
def loadDedupeIndex : DiskState → List JStr
  | .doc posts => posts.map Prod.fst
  | _ => []

/-- JavaScript object spread of `posts` over `existing`: keys of `existing`
in order (values overridden by `posts` on conflict), then the keys of
`posts` not already present, in order. -/
def objMerge (e n : List (JStr × JStr)) : List (JStr × JStr) :=
  e.map (fun kv =>
    match n.lookup kv.1 with
    | some v => (kv.1, v)
    | none => kv)
    ++ n.filter (fun kv => (e.lookup kv.1).isNone)

/-- `saveDedupeIndex(outDir, postIds, metadata)`: stamp each new id with the
current time, read whatever document exists (failure treated as empty),
merge, and write the union back. -/
def saveDedupeIndex (d : DiskState) (postIds : List JStr) (now : JStr) : DiskState :=
  let posts := postIds.map (fun id => (id, now))
  let existing :=
    match d with
    | .doc e => e
    | _ => []
  .doc (objMerge existing posts)

/-- `resetDedupeIndex(outDir)`: delete the document; absence is not an error. -/
def resetDedupeIndex (_ : DiskState) : DiskState := .absent

/-- The stateful tracker returned by `createDedupeTracker`: the id set loaded
at construction and the buffer of ids added during the current run. -/
structure DedupeTracker where
  existingIds : List JStr
  newIds : List JStr

/-- `createDedupeTracker(outDir)`: load the existing ids, start with an empty
buffer. -/
def createDedupeTracker (d : DiskState) : DedupeTracker :=
  { existingIds := loadDedupeIndex d, newIds := [] }

/-- `tracker.has(id)`: membership in the set loaded at construction only. -/
def DedupeTracker.has (t : DedupeTracker) (id : JStr) : Bool :=
  t.existingIds.contains id

/-- `tracker.add(id)`: buffer the id for the pending save (`Set.add`). -/
def DedupeTracker.add (t : DedupeTracker) (id : JStr) : DedupeTracker :=
  if t.newIds.contains id then t else { t with newIds := t.newIds ++ [id] }

/-- `tracker.save()`: persist the buffered ids via `saveDedupeIndex`, writing
nothing at all when the buffer is empty.  `d` is the disk state at save time. -/
def DedupeTracker.save (t : DedupeTracker) (d : DiskState) (now : JStr) : DiskState :=
  if t.newIds.isEmpty then d else saveDedupeIndex d t.newIds now

/-! ## Retry wrapper (`src/redditClient.js`, `withRetry`) -/

/-- A thrown JavaScript error as inspected by `withRetry`: an optional
`statusCode` and an optional `message`. -/
structure JsError where
  statusCode : Option Int
  message : Option JStr

/-- A character the regular-expression metacharacter `.` matches (anything but
a line terminator). -/
def dotMatches (c : Char) : Bool :=
  !(c = nlc || c = crc || c.toNat = 0x2028 || c.toNat = 0x2029)

/-- Case-insensitive prefix test (the regex is `/i`-flagged). -/
def startsWithCI (pat l : JStr) : Bool :=
  (l.take pat.length).map Char.toLower == pat

/-- Does `/rate.?limit/i` match at the start of `l`? -/
def rateLimitAt (l : JStr) : Bool :=
  startsWithCI ['r', 'a', 't', 'e'] l &&
    (startsWithCI ['l', 'i', 'm', 'i', 't'] (l.drop 4)
      || (match l.drop 4 with
          | c :: r => dotMatches c && startsWithCI ['l', 'i', 'm', 'i', 't'] r
          | [] => false))

/-- `/rate.?limit/i.test(message)`: match at any position. -/
def rateLimitTest : JStr → Bool
  | [] => false
  | l@(_ :: r) => rateLimitAt l || rateLimitTest r

/-- The retryability classification inside `withRetry`'s catch block:
`err?.statusCode === 429 || /rate.?limit/i.test(err?.message)` or any
5xx-class status.  An absent message is coerced by the regex test to the
string `"undefined"` (which never matches). -/
def isRetryable (e : JsError) : Bool :=
  (e.statusCode == some 429 || rateLimitTest (e.message.getD "undefined".data))
    || (match e.statusCode with
        | some n => n ≥ 500
        | none => false)

/-- The retry loop of `withRetry`, with the operation modelled as a function
from the attempt number to an outcome.  Returns the final outcome together
with the list of `onRetry` hook invocations `(attempt + 1, delayMs)`, where
`delayMs = baseDelayMs * 2 ^ attempt`.  `rem` is the number of attempts still
allowed after the current one (`maxRetries - attempt`). -/
def withRetryGo (fn : Nat → Except JsError α) (baseDelayMs : Nat) :
    Nat → Nat → Except JsError α × List (Nat × Nat)
  | attempt, rem =>
    match fn attempt with
    | .ok v => (.ok v, [])
    | .error err =>
      match rem with
      | 0 => (.error err, [])
      | rem2 + 1 =>
        if isRetryable err then
          let delayMs := baseDelayMs * 2 ^ attempt
          let rest := withRetryGo fn baseDelayMs (attempt + 1) rem2
          (rest.1, (attempt + 1, delayMs) :: rest.2)
        else (.error err, [])
termination_by _ rem => rem

/-- `withRetry(fn, { maxRetries, baseDelayMs, onRetry })` from
`src/redditClient.js` (defaults `maxRetries = 3`, `baseDelayMs = 1000`). -/
def withRetry (fn : Nat → Except JsError α) (maxRetries baseDelayMs : Nat) :
    Except JsError α × List (Nat × Nat) :=
  withRetryGo fn baseDelayMs 0 maxRetries

/-! ## Filter engine (`src/redditHarvest.js`) -/

/-- A JavaScript field value as the harvest code inspects it: `undefined`,
`null`, a string, or an integral number. -/
inductive JsField where
  | undef
  | null
  | str (s : JStr)
  | num (n : Int)

/-- JavaScript truthiness of a `JsField`. -/
def jsFieldFalsy : JsField → Bool
  | .undef => true
  | .null => true
  | .str s => s.isEmpty
  | .num n => n == 0

/-- `safeText(v)` from `src/redditHarvest.js`: the empty string for
`null`/`undefined`, otherwise `String(v)`. -/
def safeText : JsField → JStr
  | .undef => []
  | .null => []
  | .str s => s
  | .num n => intToChars n

/-- `Number(v)` restricted to the integral fragment this system uses:
`none` models `NaN`.  A string is converted by trimming and reading an
optionally signed decimal integer; the empty (trimmed) string converts to 0;
any other string is `NaN` here (fractional or exponent-form numeric strings
are outside the integral model and do not occur as date bounds produced by
this system). -/
def jsToNumber : JsField → Option Int
  | .num n => some n
  | .null => some 0
  | .undef => none
  | .str s =>
    let t := jsTrim s
    match t with
    | [] => some 0
    | c :: r =>
      if c = '-' then
        if r ≠ [] ∧ r.all isDigitChar then
          some (-(r.foldl (fun a d => a * 10 + digitVal d) 0 : Nat))
        else none
      else if c = '+' then
        if r ≠ [] ∧ r.all isDigitChar then
          some ((r.foldl (fun a d => a * 10 + digitVal d) 0 : Nat))
        else none
      else if t.all isDigitChar then
        some ((t.foldl (fun a d => a * 10 + digitVal d) 0 : Nat))
      else none

/-- `new Date(v).getTime()` in milliseconds (`none` models an invalid date).
For a number this is the number itself when within the representable range;
for a string it is the platform's date-string parser, supplied as the
parameter `dateParseMs` (an external collaborator of the code under test). -/
def dateTimeMs (dateParseMs : JStr → Option Int) : JsField → Option Int
  | .num n => if n.natAbs ≤ 8640000000000000 then some n else none
  | .str s => dateParseMs s
  | .null => some 0
  | .undef => none

/-- `parseDateToUnix(dateStr)` from `src/redditHarvest.js`: falsy input gives
`null`; a numeric value strictly between 1e9 and 1e12 is returned as Unix
seconds; a numeric value strictly above 1e12 is floored milliseconds; anything
else goes through `new Date(dateStr)`, flooring its millisecond time to
seconds, with an invalid date giving `null`. -/
def parseDateToUnix (dateParseMs : JStr → Option Int) (dateStr : JsField) : Option Int :=
  if jsFieldFalsy dateStr then none
  else
    let dateBranch := (dateTimeMs dateParseMs dateStr).map (fun t => Int.fdiv t 1000)
    match jsToNumber dateStr with
    | some n =>
      if 1000000000 < n ∧ n < 1000000000000 then some n
      else if 1000000000000 < n then some (Int.fdiv n 1000)
      else dateBranch
    | none => dateBranch

/-- A raw post as fetched from the remote platform, with exactly the fields
the harvest code reads.  `author` distinguishes a user object carrying a
`name` string (the `p.author?.name` path) from a primitive value. -/
structure RawPost where
  id : JsField
  title : JsField
  author : JStr ⊕ JsField
  created_utc : Option Int
  score : Option Int
  num_comments : Option Int
  url : JsField
  permalink : JsField
  selftext : JsField

/-- Filter criteria for `applyFilters`.  `minScore`/`minComments` are `none`
when absent (`NaN` values are likewise treated as absent by the code and are
outside the integral model). -/
structure FilterCriteria where
  minScore : Option Int := none
  minComments : Option Int := none
  after : JsField := .null
  before : JsField := .null

/-- `applyFilters(posts, criteria)` from `src/redditHarvest.js`: four
independent, conjunctive filters; score and comment-count bounds are
inclusive lower bounds with absent record fields defaulting to 0; date
bounds compare the record's `created_utc` inclusively; an absent or
unparseable bound filters nothing. -/
def applyFilters (dateParseMs : JStr → Option Int) (posts : List RawPost)
    (c : FilterCriteria) : List RawPost :=
  let f1 :=
    match c.minScore with
    | some m => posts.filter (fun p => decide (p.score.getD 0 ≥ m))
    | none => posts
  let f2 :=
    match c.minComments with
    | some m => f1.filter (fun p => decide (p.num_comments.getD 0 ≥ m))
    | none => f1
  let f3 :=
    match parseDateToUnix dateParseMs c.after with
    | some ts => f2.filter (fun p => decide (p.created_utc.getD 0 ≥ ts))
    | none => f2
  match parseDateToUnix dateParseMs c.before with
  | some ts => f3.filter (fun p => decide (p.created_utc.getD 0 ≤ ts))
  | none => f3

/-! ## Record normalization (`src/redditHarvest.js`, `harvestSubreddit`) -/

/-- `p.author?.name ?? p.author` followed by `safeText`. -/
def authorText : JStr ⊕ JsField → JStr
  | .inl name => name
  | .inr v => safeText v

/-- The `postData` record built for one raw post inside `harvestSubreddit`.
`isoOfUnixSec` abstracts `new Date(t * 1000).toISOString()`;
`includeComments` and the reply-expansion outcome determine the replies list
or the `commentsError` marker. -/
def normalizePost (isoOfUnixSec : Int → JStr) (subreddit : JStr) (p : RawPost)
    (includeComments : Bool) (expansion : Except JStr (List RComment)) : Post :=
  let createdIso :=
    match p.created_utc with
    | some t => if t ≠ 0 then isoOfUnixSec t else []
    | none => []
  let base : Post :=
    { id := safeText p.id, subreddit := subreddit, title := safeText p.title,
      author := authorText p.author, created := createdIso,
      score := p.score.getD 0, numComments := p.num_comments.getD 0,
      url := safeText p.url, permalink := safeText p.permalink,
      selftext := safeText p.selftext, comments := [], commentsError := none }
  if includeComments then
    match expansion with
    | .ok cs => { base with comments := cs }
    | .error msg => { base with commentsError := some msg }
  else base

/-! ## Plain-text corpus formatter (`src/redditHarvest.js`, `formatPostsToText`) -/

/-- Options of `formatPostsToText` (destructured from its second argument). -/
structure TextOpts where
  subreddit : JStr
  listing : JStr
  time : JStr
  limit : Int
  includeComments : Bool
  commentLimit : Int
  search : Option JStr := none

/-- The listing variant of the third header line:
`listing: ${listing}` plus ` (${time})` when the listing is `top`. -/
def listingLine (o : TextOpts) : JStr :=
  "listing: ".data ++ o.listing
    ++ (if o.listing = "top".data then " (".data ++ o.time ++ [')'] else [])

/-- The third header line: the ternary `search ? ... : ...` (an empty search
string is falsy and selects the listing line). -/
def searchOrListingLine (o : TextOpts) : JStr :=
  match o.search with
  | some q => if q.isEmpty then listingLine o else "search: ".data ++ qm :: q ++ [qm]
  | none => listingLine o

/-- JavaScript template rendering of a boolean. -/
def boolChars (b : Bool) : JStr := if b then "true".data else "false".data

/-- The header lines of `formatPostsToText` (the array joined with newlines);
`now` abstracts `new Date().toISOString()`. -/
def headerLines (posts : List Post) (o : TextOpts) (now : JStr) : List JStr :=
  ["# Reddit corpus export".data,
   "subreddit: r/".data ++ o.subreddit,
   searchOrListingLine o,
   "limit: ".data ++ intToChars o.limit,
   "includeComments: ".data ++ boolChars o.includeComments,
   "commentLimit: ".data ++ intToChars (if o.includeComments then o.commentLimit else 0),
   "postsHarvested: ".data ++ natToChars posts.length,
   "exportedAt: ".data ++ now,
   []]

/-- `replaceAll("\r\n", "\n")`. -/
def replaceCrlf : JStr → JStr
  | [] => []
  | c :: r =>
    if c = crc then
      match r with
      | d :: r2 => if d = nlc then nlc :: replaceCrlf r2 else c :: replaceCrlf (d :: r2)
      | [] => [c]
    else c :: replaceCrlf r

/-- `replaceAll("\n", "\n  ")`. -/
def indentAfterNl : JStr → JStr
  | [] => []
  | c :: r => if c = nlc then nlc :: ' ' :: ' ' :: indentAfterNl r else c :: indentAfterNl r

/-- One entry of the comments block. -/
def commentEntry (idx : Nat) (c : RComment) : JStr :=
  let body := jsTrim (replaceCrlf c.body)
  joinWith [nlc]
    ["- comment ".data ++ natToChars (idx + 1) ++ [':'],
     "  author: ".data ++ c.author,
     "  score: ".data ++ intToChars c.score,
     indentAfterNl ("  body: ".data ++ (if body.isEmpty then "(empty)".data else body))]

/-- The per-record section of `formatPostsToText` (the array joined with
newlines): delimiter, numbered `POST i/total`, flat metadata lines, blank
line, the trimmed body or the `(no selftext)` placeholder, blank line. -/
def postSection (total : Nat) (idx : Nat) (p : Post) : JStr :=
  joinWith [nlc]
    ["---".data,
     "POST ".data ++ natToChars (idx + 1) ++ '/' :: natToChars total,
     "id: ".data ++ p.id,
     "title: ".data ++ p.title,
     "author: ".data ++ p.author,
     "created: ".data ++ p.created,
     "score: ".data ++ intToChars p.score,
     "num_comments: ".data ++ intToChars p.numComments,
     "url: ".data ++ p.url,
     "permalink: ".data ++ p.permalink,
     [],
     "selftext:".data,
     (if (jsTrim p.selftext).isEmpty then "(no selftext)".data else jsTrim p.selftext),
     []]

/-- The comments section pushed after a record's section when comment
inclusion was requested: an error marker, `(none)`, or the numbered list. -/
def commentsSection (p : Post) : JStr :=
  match p.commentsError with
  | some e => "comments:".data ++ nlc :: "(error: ".data ++ e ++ ')' :: [nlc]
  | none =>
    if p.comments.isEmpty then "comments:".data ++ nlc :: "(none)".data ++ [nlc]
    else joinWith [nlc]
      ("comments:".data :: (p.comments.mapIdx (fun i c => commentEntry i c)) ++ [[]])

/-- `formatPostsToText(posts, opts)` from `src/redditHarvest.js`. -/
def formatPostsToText (posts : List Post) (o : TextOpts) (now : JStr) : JStr :=
  let header := joinWith [nlc] (headerLines posts o now)
  let sections := header ::
    (posts.mapIdx (fun i p =>
      postSection posts.length i p ::
        (if o.includeComments then [commentsSection p] else []))).flatten
  joinWith [nlc] sections

/-- Boolean prefix test on character lists. -/
def startsWithChars : JStr → JStr → Bool
  | [], _ => true
  | _ :: _, [] => false
  | p :: ps, c :: cs => p == c && startsWithChars ps cs

/-- Boolean substring test on character lists. -/
def containsSub (pat : JStr) : JStr → Bool
  | [] => startsWithChars pat []
  | l@(_ :: r) => startsWithChars pat l || containsSub pat r

/-! ## Theorems -/

theorem chunkGo_flatten (m : Nat) (hm : m ≠ 0) (l : JStr) :
    (chunkGo m l).flatten = l := by
  generalize hn : l.length = n
  induction n using Nat.strong_induction_on generalizing l with
  | _ n ih =>
    rw [chunkGo]
    cases l with
    | nil => simp
    | cons a as =>
      simp only [hm, if_false, List.isEmpty_cons, if_neg, Bool.false_eq_true,
        not_false_eq_true, List.flatten_cons]
      rw [ih ((a :: as).drop m).length _ _ rfl]
      · exact List.take_append_drop m (a :: as)
      · subst hn
        simp only [List.length_drop]
        have : 0 < m := Nat.pos_of_ne_zero hm
        simp only [List.length_cons]
        omega

theorem chunkGo_mem_length (m : Nat) (l : JStr) (c : JStr) (hc : c ∈ chunkGo m l) :
    c.length ≤ m := by
  generalize hn : l.length = n
  induction n using Nat.strong_induction_on generalizing l c with
  | _ n ih =>
    rw [chunkGo] at hc
    by_cases hm : m = 0
    · simp [hm] at hc
    · cases l with
      | nil => simp at hc
      | cons a as =>
        simp only [hm, if_false, List.isEmpty_cons, Bool.false_eq_true,
          not_false_eq_true, if_neg, List.mem_cons] at hc
        rcases hc with hc | hc
        · subst hc
          simp only [List.length_take_le]
        · refine ih ((a :: as).drop m).length ?_ _ _ hc rfl
          subst hn
          have : 0 < m := Nat.pos_of_ne_zero hm
          simp only [List.length_drop, List.length_cons]
          omega

theorem chunkGo_mem_ne_nil (m : Nat) (hm : m ≠ 0) (l : JStr) (c : JStr)
    (hc : c ∈ chunkGo m l) : c ≠ [] := by
  generalize hn : l.length = n
  induction n using Nat.strong_induction_on generalizing l c with
  | _ n ih =>
    rw [chunkGo] at hc
    cases l with
    | nil => simp at hc
    | cons a as =>
      simp only [hm, if_false, List.isEmpty_cons, Bool.false_eq_true,
        not_false_eq_true, if_neg, List.mem_cons] at hc
      rcases hc with hc | hc
      · subst hc
        have : 0 < m := Nat.pos_of_ne_zero hm
        cases m with
        | zero => omega
        | succ k => simp [List.take_succ_cons]
      · refine ih ((a :: as).drop m).length ?_ _ _ hc rfl
        subst hn
        have : 0 < m := Nat.pos_of_ne_zero hm
        simp only [List.length_drop, List.length_cons]
        omega

theorem chunkGo_length (m : Nat) (hm : m ≠ 0) (l : JStr) (hd : m ∣ l.length) :
    (chunkGo m l).length = l.length / m := by
  generalize hn : l.length = n
  induction n using Nat.strong_induction_on generalizing l with
  | _ n ih =>
    rw [chunkGo]
    cases l with
    | nil =>
      subst hn
      simp
    | cons a as =>
      simp only [hm, if_false, List.isEmpty_cons, Bool.false_eq_true,
        not_false_eq_true, if_neg, List.length_cons]
      have hpos : 0 < m := Nat.pos_of_ne_zero hm
      rcases hd with ⟨k0, hk0⟩
      simp only [List.length_cons] at hk0
      have hk0pos : 0 < k0 := by
        rcases Nat.eq_zero_or_pos k0 with h0 | h0
        · subst h0; simp at hk0
        · exact h0
      have hmul : m * k0 = m * (k0 - 1) + m := by
        rcases k0 with _ | k1
        · omega
        · have : m * (k1 + 1) = m * k1 + m := by ring
          simpa using this
      have hdroplen : ((a :: as).drop m).length = m * (k0 - 1) := by
        simp only [List.length_drop, List.length_cons]
        omega
      have hlt : m * (k0 - 1) < n := by
        subst hn
        simp only [List.length_cons]
        omega
      rw [ih (m * (k0 - 1)) hlt ((a :: as).drop m) ⟨k0 - 1, hdroplen⟩ hdroplen]
      subst hn
      simp only [List.length_cons]
      rw [hk0, Nat.mul_div_cancel_left _ hpos, Nat.mul_div_cancel_left _ hpos]
      omega

/-- C1: for every string `s` and positive maximum chunk size `m`, the chunker
returns contiguous slices whose concatenation is exactly `s`, each of length at
most `m`; when `s` is nonempty and its length is an exact multiple of `m`, no
slice is empty and the number of slices is `len(s)/m`; a null/absent input
yields a single empty slice. -/
theorem chunkStringBySize_spec (s : JStr) (m : Nat) (hm : 0 < m) :
    (chunkStringBySize (some s) m).flatten = s
    ∧ (∀ c ∈ chunkStringBySize (some s) m, c.length ≤ m)
    ∧ (0 < s.length → s.length % m = 0 →
        (∀ c ∈ chunkStringBySize (some s) m, c ≠ [])
        ∧ (chunkStringBySize (some s) m).length = s.length / m)
    ∧ chunkStringBySize none m = [[]] := by
  have hm0 : m ≠ 0 := Nat.pos_iff_ne_zero.mp hm
  unfold chunkStringBySize
  simp only [Option.getD_some, Option.getD_none]
  refine ⟨?_, ?_, ?_, ?_⟩
  · by_cases h : s.length ≤ m
    · simp [h]
    · simp only [h, if_false]
      exact chunkGo_flatten m hm0 s
  · intro c hc
    by_cases h : s.length ≤ m
    · simp only [h, if_true, List.mem_singleton] at hc
      subst hc; exact h
    · simp only [h, if_false] at hc
      exact chunkGo_mem_length m s c hc
  · intro hpos hmod
    constructor
    · intro c hc
      by_cases h : s.length ≤ m
      · simp only [h, if_true, List.mem_singleton] at hc
        subst hc
        intro hnil
        rw [hnil] at hpos
        simp at hpos
      · simp only [h, if_false] at hc
        exact chunkGo_mem_ne_nil m hm0 s c hc
    · by_cases h : s.length ≤ m
      · simp only [h, if_true, List.length_singleton]
        have hd : m ∣ s.length := Nat.dvd_of_mod_eq_zero hmod
        rcases hd with ⟨k, hk⟩
        rcases k with _ | k
        · omega
        · have : k = 0 := by nlinarith
          subst this
          rw [hk]
          simp [Nat.mul_div_cancel_left _ hm, Nat.div_self hm]
      · simp only [h, if_false]
        exact chunkGo_length m hm0 s (Nat.dvd_of_mod_eq_zero hmod)
  · simp

/-- Witness for C1 at the concrete input `"abcdef"`, `m = 2`. -/
theorem chunkStringBySize_spec_witness :
    (0 : Nat) < 2 ∧
      ((chunkStringBySize (some ['a', 'b', 'c', 'd', 'e', 'f']) 2).flatten
            = ['a', 'b', 'c', 'd', 'e', 'f']
        ∧ (∀ c ∈ chunkStringBySize (some ['a', 'b', 'c', 'd', 'e', 'f']) 2, c.length ≤ 2)
        ∧ (0 < (['a', 'b', 'c', 'd', 'e', 'f'] : JStr).length →
            (['a', 'b', 'c', 'd', 'e', 'f'] : JStr).length % 2 = 0 →
            (∀ c ∈ chunkStringBySize (some ['a', 'b', 'c', 'd', 'e', 'f']) 2, c ≠ [])
            ∧ (chunkStringBySize (some ['a', 'b', 'c', 'd', 'e', 'f']) 2).length
                = (['a', 'b', 'c', 'd', 'e', 'f'] : JStr).length / 2)
        ∧ chunkStringBySize none 2 = [[]]) :=
  ⟨by decide, chunkStringBySize_spec ['a', 'b', 'c', 'd', 'e', 'f'] 2 (by decide)⟩

theorem hexVal_hexChar (n : Nat) (h : n < 16) : hexVal (hexChar n) = some n := by
  interval_cases n <;> decide

theorem isDigitChar_digitChar (n : Nat) (h : n < 10) : isDigitChar (digitChar n) = true := by
  interval_cases n <;> decide

theorem digitVal_digitChar (n : Nat) (h : n < 10) : digitVal (digitChar n) = n := by
  interval_cases n <;> decide

theorem natToCharsGo_fuel (n : Nat) : ∀ f1 f2, n < f1 → n < f2 →
    natToCharsGo f1 n = natToCharsGo f2 n := by
  induction n using Nat.strong_induction_on with
  | _ n ih =>
    intro f1 f2 h1 h2
    cases f1 with
    | zero => omega
    | succ g1 =>
      cases f2 with
      | zero => omega
      | succ g2 =>
        rw [natToCharsGo, natToCharsGo]
        by_cases hn : n < 10
        · simp [hn]
        · simp only [hn, if_false, ite_false]
          congr 1
          exact ih (n / 10) (Nat.div_lt_self (by omega) (by omega)) g1 g2 (by omega) (by omega)

theorem natToChars_eq (n : Nat) : natToChars n
    = if n < 10 then [digitChar n] else natToChars (n / 10) ++ [digitChar (n % 10)] := by
  show natToCharsGo (n + 1) n = _
  rw [natToCharsGo]
  by_cases hn : n < 10
  · simp [hn]
  · simp only [hn, if_false, ite_false]
    congr 1
    exact natToCharsGo_fuel (n / 10) n (n / 10 + 1) (by omega) (by omega)

theorem natToChars_ne_nil (n : Nat) : natToChars n ≠ [] := by
  rw [natToChars_eq]
  split <;> simp

theorem natToChars_all_digits (n : Nat) : ∀ c ∈ natToChars n, isDigitChar c = true := by
  induction n using Nat.strong_induction_on with
  | _ n ih =>
    rw [natToChars_eq]
    split
    · intro c hc
      simp only [List.mem_singleton] at hc
      subst hc
      exact isDigitChar_digitChar n (by omega)
    · intro c hc
      rcases List.mem_append.mp hc with hc | hc
      · exact ih (n / 10) (Nat.div_lt_self (by omega) (by omega)) c hc
      · simp only [List.mem_singleton] at hc
        subst hc
        exact isDigitChar_digitChar (n % 10) (Nat.mod_lt n (by omega))

theorem natToChars_head_digit (n : Nat) :
    ∃ c cs, natToChars n = c :: cs ∧ isDigitChar c = true := by
  cases h : natToChars n with
  | nil => exact absurd h (natToChars_ne_nil n)
  | cons c cs =>
    refine ⟨c, cs, rfl, ?_⟩
    exact natToChars_all_digits n c (by rw [h]; simp)

theorem foldl_natToChars (n : Nat) : ∀ a : Nat,
    (natToChars n).foldl (fun a c => a * 10 + digitVal c) a
      = a * 10 ^ (natToChars n).length + n := by
  induction n using Nat.strong_induction_on with
  | _ n ih =>
    intro a
    rw [natToChars_eq]
    split
    · simp [digitVal_digitChar n (by omega)]
    · rename_i h
      rw [List.foldl_append, ih (n / 10) (Nat.div_lt_self (by omega) (by omega)) a]
      simp only [List.foldl_cons, List.foldl_nil, List.length_append, List.length_singleton]
      rw [digitVal_digitChar (n % 10) (Nat.mod_lt n (by omega))]
      have hmod := Nat.div_add_mod n 10
      have hpow : 10 ^ ((natToChars (n / 10)).length + 1)
          = 10 ^ (natToChars (n / 10)).length * 10 := by ring
      rw [hpow]
      ring_nf
      omega

theorem takeWhile_append_all {p : Char → Bool} (xs rest : JStr)
    (hxs : ∀ c ∈ xs, p c = true) (hrest : ∀ c, rest.head? = some c → p c = false) :
    (xs ++ rest).takeWhile p = xs ∧ (xs ++ rest).dropWhile p = rest := by
  induction xs with
  | nil =>
    simp only [List.nil_append]
    cases rest with
    | nil => simp
    | cons c r =>
      have hc : p c = false := hrest c rfl
      constructor
      · simp [List.takeWhile, hc]
      · simp [List.dropWhile, hc]
  | cons x xs ih =>
    have hx : p x = true := hxs x (by simp)
    have ih2 := ih (fun c hc => hxs c (by simp [hc]))
    simp only [List.cons_append]
    constructor
    · rw [List.takeWhile_cons_of_pos hx, ih2.1]
    · rw [List.dropWhile_cons_of_pos hx, ih2.2]

theorem parseNatFrom_natToChars (n : Nat) (rest : JStr) (hrest : HeadNotDigit rest) :
    parseNatFrom (natToChars n ++ rest) = some (n, rest) := by
  have h := takeWhile_append_all (p := isDigitChar) (natToChars n) rest
    (natToChars_all_digits n) hrest
  unfold parseNatFrom
  rw [h.1, h.2]
  simp only [List.isEmpty_iff]
  rw [if_neg (natToChars_ne_nil n)]
  rw [show (natToChars n).foldl (fun a c => a * 10 + digitVal c) 0
      = 0 * 10 ^ (natToChars n).length + n from foldl_natToChars n 0]
  simp

theorem digit_ne_special {c : Char} (h : isDigitChar c = true) :
    c ≠ '-' ∧ c ≠ qm ∧ c ≠ '[' ∧ c ≠ lbr ∧ c ≠ 'n' ∧ c ≠ 't' ∧ c ≠ 'f'
      ∧ c ≠ ']' ∧ c ≠ rbr ∧ c ≠ ',' ∧ c ≠ nlc ∧ isJsWs c = false := by
  simp only [isDigitChar, Bool.and_eq_true, decide_eq_true_iff] at h
  refine ⟨?_, ?_, ?_, ?_, ?_, ?_, ?_, ?_, ?_, ?_, ?_, ?_⟩ <;>
    first
    | (intro hc; subst hc; revert h; decide)
    | (apply Bool.eq_false_iff.mpr
       intro hw
       unfold isJsWs at hw
       simp only [Bool.or_eq_true, decide_eq_true_iff, Bool.and_eq_true] at hw
       omega)

theorem parseNum_intToChars (n : Int) (rest : JStr) (hrest : HeadNotDigit rest) :
    parseNum (intToChars n ++ rest) = some (JVal.num n, rest) := by
  unfold intToChars
  split
  · rename_i hneg
    simp only [List.cons_append]
    rw [parseNum, if_pos rfl]
    rw [parseNatFrom_natToChars n.natAbs rest hrest]
    simp only [Option.map_some']
    congr 2
    have habs : ((n.natAbs : Int)) = -n := Int.ofNat_natAbs_of_nonpos (le_of_lt hneg)
    rw [habs, neg_neg]
  · rename_i hpos
    obtain ⟨c, cs, hc, hdig⟩ := natToChars_head_digit n.toNat
    rw [hc]
    simp only [List.cons_append]
    rw [parseNum, if_neg (digit_ne_special hdig).1]
    rw [← List.cons_append, ← hc, parseNatFrom_natToChars n.toNat rest hrest]
    simp only [Option.map_some']
    congr 2
    exact congrArg JVal.num (Int.toNat_of_nonneg (not_lt.mp hpos))

@[simp] theorem bsl_ne_qm : ¬ bsl = qm := by decide

@[simp] theorem qm_ne_u : ¬ qm = 'u' := by decide

@[simp] theorem bsl_ne_u : ¬ bsl = 'u' := by decide

@[simp] theorem escSimple_qm : escSimple qm = some qm := by decide

@[simp] theorem escSimple_bsl : escSimple bsl = some bsl := by decide

@[simp] theorem escSimple_b : escSimple 'b' = some bspc := by decide

@[simp] theorem escSimple_f : escSimple 'f' = some ffc := by decide

@[simp] theorem escSimple_n : escSimple 'n' = some nlc := by decide

@[simp] theorem escSimple_r : escSimple 'r' = some crc := by decide

@[simp] theorem escSimple_t : escSimple 't' = some tabc := by decide

@[simp] theorem hexVal_zero : hexVal '0' = some 0 := by decide

@[simp] theorem lbr_ne_qm : ¬ lbr = qm := by decide

@[simp] theorem lbr_ne_lbrack : ¬ lbr = '[' := by decide

@[simp] theorem rbr_ne_comma : ¬ rbr = ',' := by decide

@[simp] theorem rbr_ne_rbrack : ¬ rbr = ']' := by decide

@[simp] theorem rbr_ne_colon : ¬ rbr = ':' := by decide

@[simp] theorem qm_ne_rbr : ¬ qm = rbr := by decide

@[simp] theorem b_ne_u : ¬ 'b' = 'u' := by decide

@[simp] theorem f_ne_u : ¬ 'f' = 'u' := by decide

@[simp] theorem n_ne_u : ¬ 'n' = 'u' := by decide

@[simp] theorem r_ne_u : ¬ 'r' = 'u' := by decide

@[simp] theorem t_ne_u : ¬ 't' = 'u' := by decide

theorem parseStrChars_escape (s : JStr) : ∀ rest : JStr,
    parseStrChars (escapeStr s ++ qm :: rest) = some (s, rest) := by
  induction s with
  | nil =>
    intro rest
    rw [show escapeStr [] = [] from rfl]
    rw [List.nil_append, parseStrChars.eq_def]
    simp
  | cons c s ih =>
    intro rest
    have hth : escapeStr (c :: s) ++ qm :: rest = escapeChar c ++ (escapeStr s ++ qm :: rest) := by
      simp [escapeStr]
    rw [hth]
    by_cases h1 : c = qm
    · subst h1
      rw [show escapeChar qm = [bsl, qm] from by decide]
      rw [List.cons_append, List.cons_append, List.nil_append, parseStrChars.eq_def]
      simp [ih]
    · by_cases h2 : c = bsl
      · subst h2
        rw [show escapeChar bsl = [bsl, bsl] from by decide]
        rw [List.cons_append, List.cons_append, List.nil_append, parseStrChars.eq_def]
        simp [ih]
      · by_cases h3 : c = bspc
        · subst h3
          rw [show escapeChar bspc = [bsl, 'b'] from by decide]
          rw [List.cons_append, List.cons_append, List.nil_append, parseStrChars.eq_def]
          simp [ih]
        · by_cases h4 : c = ffc
          · subst h4
            rw [show escapeChar ffc = [bsl, 'f'] from by decide]
            rw [List.cons_append, List.cons_append, List.nil_append, parseStrChars.eq_def]
            simp [ih]
          · by_cases h5 : c = nlc
            · subst h5
              rw [show escapeChar nlc = [bsl, 'n'] from by decide]
              rw [List.cons_append, List.cons_append, List.nil_append, parseStrChars.eq_def]
              simp [ih]
            · by_cases h6 : c = crc
              · subst h6
                rw [show escapeChar crc = [bsl, 'r'] from by decide]
                rw [List.cons_append, List.cons_append, List.nil_append, parseStrChars.eq_def]
                simp [ih]
              · by_cases h7 : c = tabc
                · subst h7
                  rw [show escapeChar tabc = [bsl, 't'] from by decide]
                  rw [List.cons_append, List.cons_append, List.nil_append, parseStrChars.eq_def]
                  simp [ih]
                · by_cases h8 : c.toNat < 32
                  · rw [show escapeChar c
                        = [bsl, 'u', '0', '0', hexChar (c.toNat / 16), hexChar (c.toNat % 16)] from by
                      unfold escapeChar
                      rw [if_neg h1, if_neg h2, if_neg h3, if_neg h4, if_neg h5, if_neg h6,
                        if_neg h7, if_pos h8]]
                    have hhi : hexVal (hexChar (c.toNat / 16)) = some (c.toNat / 16) :=
                      hexVal_hexChar _ (by omega)
                    have hlo : hexVal (hexChar (c.toNat % 16)) = some (c.toNat % 16) :=
                      hexVal_hexChar _ (by omega)
                    simp only [List.cons_append, List.nil_append]
                    rw [parseStrChars.eq_def]
                    simp [hhi, hlo, ih]
                    rw [show 16 * (c.toNat / 16) + c.toNat % 16 = c.toNat from by omega]
                    exact Char.ofNat_toNat c
                  · rw [show escapeChar c = [c] from by
                      unfold escapeChar
                      rw [if_neg h1, if_neg h2, if_neg h3, if_neg h4, if_neg h5, if_neg h6,
                        if_neg h7, if_neg h8]]
                    rw [List.cons_append, List.nil_append, parseStrChars.eq_def]
                    simp [h1, h2, ih]

@[simp] theorem lbrack_ne_qm : ¬ '[' = qm := by decide

@[simp] theorem n_ne_qm : ¬ 'n' = qm := by decide

@[simp] theorem n_ne_lbrack : ¬ 'n' = '[' := by decide

@[simp] theorem n_ne_lbr : ¬ 'n' = lbr := by decide

@[simp] theorem t_ne_qm : ¬ 't' = qm := by decide

@[simp] theorem t_ne_lbrack : ¬ 't' = '[' := by decide

@[simp] theorem t_ne_lbr : ¬ 't' = lbr := by decide

@[simp] theorem t_ne_n : ¬ 't' = 'n' := by decide

@[simp] theorem f_ne_qm : ¬ 'f' = qm := by decide

@[simp] theorem f_ne_lbrack : ¬ 'f' = '[' := by decide

@[simp] theorem f_ne_lbr : ¬ 'f' = lbr := by decide

@[simp] theorem f_ne_n : ¬ 'f' = 'n' := by decide

@[simp] theorem f_ne_t : ¬ 'f' = 't' := by decide

@[simp] theorem rbrack_ne_comma : ¬ ']' = ',' := by decide

theorem jvalFuel_pos (j : JVal) : 1 ≤ jvalFuel j := by
  cases j <;> simp [jvalFuel]

theorem elemsFuel_pos (es : List JVal) (h : es ≠ []) : 1 ≤ elemsFuel es := by
  cases es with
  | nil => exact absurd rfl h
  | cons e es => simp [elemsFuel]

theorem membersFuel_pos (ms : List (JStr × JVal)) (h : ms ≠ []) : 1 ≤ membersFuel ms := by
  cases ms with
  | nil => exact absurd rfl h
  | cons m ms => simp [membersFuel]

theorem stringify_goodHead (j : JVal) :
    ∃ c cs, stringifyJVal j = c :: cs ∧ goodHead c = true := by
  cases j with
  | str s => exact ⟨qm, _, rfl, by decide⟩
  | num n =>
    show ∃ c cs, intToChars n = c :: cs ∧ goodHead c = true
    unfold intToChars
    split
    · exact ⟨'-', _, rfl, by decide⟩
    · obtain ⟨c, cs, hc, hd⟩ := natToChars_head_digit n.toNat
      exact ⟨c, cs, hc, by simp [goodHead, hd]⟩
  | bool b => cases b
              · exact ⟨'f', _, rfl, by decide⟩
              · exact ⟨'t', _, rfl, by decide⟩
  | null => exact ⟨'n', _, rfl, by decide⟩
  | arr es => exact ⟨'[', _, rfl, by decide⟩
  | obj ms => exact ⟨lbr, _, rfl, by decide⟩

theorem goodHead_ne_rbrack {c : Char} (h : goodHead c = true) : ¬ c = ']' := by
  simp only [goodHead, Bool.or_eq_true, decide_eq_true_iff] at h
  rcases h with ((((((h | h) | h) | h) | h) | h) | h) | h
  all_goals first
  | (subst h; decide)
  | (exact (digit_ne_special h).2.2.2.2.2.2.2.1)

theorem numHead_ne {c : Char} (h : c = '-' ∨ isDigitChar c = true) :
    ¬c = qm ∧ ¬c = '[' ∧ ¬c = lbr ∧ ¬c = 'n' ∧ ¬c = 't' ∧ ¬c = 'f' := by
  rcases h with rfl | hd
  · refine ⟨by decide, by decide, by decide, by decide, by decide, by decide⟩
  · obtain ⟨-, h1, h2, h3, h4, h5, h6, -⟩ := digit_ne_special hd
    exact ⟨h1, h2, h3, h4, h5, h6⟩

theorem headNotDigit_cons (c : Char) (l : JStr) (h : isDigitChar c = false) :
    HeadNotDigit (c :: l) := by
  intro d hd
  simp only [List.head?_cons, Option.some.injEq] at hd
  subst hd
  exact h

theorem headNotDigit_nil : HeadNotDigit [] := by
  intro d hd
  simp at hd

theorem parse_stringify (fuel : Nat) :
    (∀ j rest, jvalFuel j ≤ fuel → HeadNotDigit rest →
      parseVal fuel (stringifyJVal j ++ rest) = some (j, rest))
    ∧ (∀ es rest, es ≠ [] → elemsFuel es ≤ fuel →
      parseElems fuel (stringifyElems es ++ ']' :: rest) = some (es, rest))
    ∧ (∀ ms rest, ms ≠ [] → membersFuel ms ≤ fuel →
      parseMembers fuel (stringifyMembers ms ++ rbr :: rest) = some (ms, rest)) := by
  induction fuel with
  | zero =>
    refine ⟨?_, ?_, ?_⟩
    · intro j rest hf _
      have := jvalFuel_pos j
      omega
    · intro es rest hne hf
      have := elemsFuel_pos es hne
      omega
    · intro ms rest hne hf
      have := membersFuel_pos ms hne
      omega
  | succ fuel ih =>
    obtain ⟨ih1, ih2, ih3⟩ := ih
    refine ⟨?_, ?_, ?_⟩
    · intro j rest hf hrest
      cases j with
      | str s =>
        rw [show stringifyJVal (.str s) ++ rest = qm :: (escapeStr s ++ qm :: rest) from by
          simp [stringifyJVal]]
        rw [parseVal.eq_def]
        simp [parseStrChars_escape s rest]
      | num n =>
        obtain ⟨c, cs0, hc, hcd⟩ : ∃ c cs0, intToChars n = c :: cs0
            ∧ (c = '-' ∨ isDigitChar c = true) := by
          unfold intToChars
          split
          · exact ⟨'-', _, rfl, Or.inl rfl⟩
          · obtain ⟨c, cs, h, hd⟩ := natToChars_head_digit n.toNat
            exact ⟨c, cs, h, Or.inr hd⟩
        obtain ⟨hq, hlb, hbr, hn, ht, hf2⟩ := numHead_ne hcd
        rw [show stringifyJVal (.num n) = intToChars n from rfl, hc, List.cons_append,
          parseVal.eq_def]
        simp only [hq, hlb, hbr, hn, ht, hf2, if_false, ite_false]
        rw [← List.cons_append, ← hc]
        exact parseNum_intToChars n rest hrest
      | bool b =>
        cases b
        · rw [show stringifyJVal (.bool false) ++ rest = 'f' :: 'a' :: 'l' :: 's' :: 'e' :: rest
            from by simp [stringifyJVal]]
          rw [parseVal.eq_def]
          simp
        · rw [show stringifyJVal (.bool true) ++ rest = 't' :: 'r' :: 'u' :: 'e' :: rest
            from by simp [stringifyJVal]]
          rw [parseVal.eq_def]
          simp
      | null =>
        rw [show stringifyJVal .null ++ rest = 'n' :: 'u' :: 'l' :: 'l' :: rest
          from by simp [stringifyJVal]]
        rw [parseVal.eq_def]
        simp
      | arr es =>
        cases es with
        | nil =>
          rw [show stringifyJVal (.arr []) ++ rest = '[' :: ']' :: rest from by
            simp [stringifyJVal, stringifyElems]]
          rw [parseVal.eq_def]
          simp
        | cons e es2 =>
          have hfe : elemsFuel (e :: es2) ≤ fuel := by
            simp only [jvalFuel] at hf
            omega
          obtain ⟨c, cs, hc, hgood⟩ := stringify_goodHead e
          have hnotr : ¬ c = ']' := goodHead_ne_rbrack hgood
          obtain ⟨T, hT⟩ : ∃ T, stringifyElems (e :: es2) = stringifyJVal e ++ T := by
            cases es2 with
            | nil => exact ⟨[], by simp [stringifyElems]⟩
            | cons e2 es3 => exact ⟨',' :: stringifyElems (e2 :: es3), by simp [stringifyElems]⟩
          have hinput : stringifyJVal (.arr (e :: es2)) ++ rest
              = '[' :: (c :: (cs ++ (T ++ ']' :: rest))) := by
            rw [show stringifyJVal (.arr (e :: es2)) = '[' :: stringifyElems (e :: es2) ++ [']']
              from by simp [stringifyJVal]]
            rw [hT, hc]
            simp [List.append_assoc]
          rw [hinput, parseVal.eq_def]
          simp only [lbrack_ne_qm, hnotr, eq_self_iff_true, if_true, if_false, ite_true, ite_false]
          have hback : c :: (cs ++ (T ++ ']' :: rest)) = stringifyElems (e :: es2) ++ ']' :: rest := by
            rw [hT, hc]
            simp [List.append_assoc]
          rw [hback, ih2 (e :: es2) rest (by simp) hfe]
          simp
      | obj ms =>
        cases ms with
        | nil =>
          rw [show stringifyJVal (.obj []) ++ rest = lbr :: rbr :: rest from by
            simp [stringifyJVal, stringifyMembers]]
          rw [parseVal.eq_def]
          simp
        | cons m ms2 =>
          have hfm : membersFuel (m :: ms2) ≤ fuel := by
            simp only [jvalFuel] at hf
            omega
          obtain ⟨T, hT⟩ : ∃ T, stringifyMembers (m :: ms2)
              = qm :: escapeStr m.1 ++ qm :: ':' :: stringifyJVal m.2 ++ T := by
            cases ms2 with
            | nil => exact ⟨[], by simp [stringifyMembers]⟩
            | cons m2 ms3 =>
              refine ⟨',' :: stringifyMembers (m2 :: ms3), ?_⟩
              show stringifyMembers (m :: m2 :: ms3) = _
              simp [stringifyMembers, List.append_assoc]
          have hinput : stringifyJVal (.obj (m :: ms2)) ++ rest
              = lbr :: (qm :: (escapeStr m.1 ++ qm :: (':' :: (stringifyJVal m.2 ++ (T ++ rbr :: rest))))) := by
            rw [show stringifyJVal (.obj (m :: ms2)) = lbr :: stringifyMembers (m :: ms2) ++ [rbr]
              from by simp [stringifyJVal]]
            rw [hT]
            simp [List.append_assoc]
          rw [hinput, parseVal.eq_def]
          simp only [lbr_ne_qm, lbr_ne_lbrack, qm_ne_rbr, eq_self_iff_true, if_true, if_false,
            ite_true, ite_false]
          have hback : qm :: (escapeStr m.1 ++ qm :: (':' :: (stringifyJVal m.2 ++ (T ++ rbr :: rest))))
              = stringifyMembers (m :: ms2) ++ rbr :: rest := by
            rw [hT]
            simp [List.append_assoc]
          rw [hback, ih3 (m :: ms2) rest (by simp) hfm]
          simp
    · intro es rest hne hf
      cases es with
      | nil => exact absurd rfl hne
      | cons e es2 =>
        have hfe1 : jvalFuel e ≤ fuel := by
          simp only [elemsFuel] at hf
          omega
        cases es2 with
        | nil =>
          rw [show stringifyElems [e] ++ ']' :: rest = stringifyJVal e ++ ']' :: rest from by
            simp [stringifyElems]]
          rw [parseElems.eq_def]
          simp [ih1 e (']' :: rest) hfe1 (headNotDigit_cons _ _ (by decide))]
        | cons e2 es3 =>
          have hfe2 : elemsFuel (e2 :: es3) ≤ fuel := by
            simp only [elemsFuel] at hf ⊢
            omega
          rw [show stringifyElems (e :: e2 :: es3) ++ ']' :: rest
              = stringifyJVal e ++ (',' :: (stringifyElems (e2 :: es3) ++ ']' :: rest)) from by
            simp [stringifyElems, List.append_assoc]]
          rw [parseElems.eq_def]
          simp [ih1 e (',' :: (stringifyElems (e2 :: es3) ++ ']' :: rest)) hfe1
              (headNotDigit_cons ',' _ (by decide)),
            ih2 (e2 :: es3) rest (by simp) hfe2]
    · intro ms rest hne hf
      cases ms with
      | nil => exact absurd rfl hne
      | cons m ms2 =>
        have hfv : jvalFuel m.2 ≤ fuel := by
          simp only [membersFuel] at hf
          omega
        cases ms2 with
        | nil =>
          rw [show stringifyMembers [m] ++ rbr :: rest
              = qm :: (escapeStr m.1 ++ qm :: (':' :: (stringifyJVal m.2 ++ rbr :: rest))) from by
            simp [stringifyMembers, List.append_assoc]]
          rw [parseMembers.eq_def]
          simp [parseStrChars_escape m.1 _,
            ih1 m.2 (rbr :: rest) hfv (headNotDigit_cons _ _ (by decide))]
        | cons m2 ms3 =>
          have hfm2 : membersFuel (m2 :: ms3) ≤ fuel := by
            simp only [membersFuel] at hf ⊢
            omega
          rw [show stringifyMembers (m :: m2 :: ms3) ++ rbr :: rest
              = qm :: (escapeStr m.1 ++ qm :: (':' :: (stringifyJVal m.2
                  ++ (',' :: (stringifyMembers (m2 :: ms3) ++ rbr :: rest))))) from by
            simp [stringifyMembers, List.append_assoc]]
          rw [parseMembers.eq_def]
          simp [parseStrChars_escape m.1 _,
            ih1 m.2 (',' :: (stringifyMembers (m2 :: ms3) ++ rbr :: rest)) hfv
              (headNotDigit_cons ',' _ (by decide)),
            ih3 (m2 :: ms3) rest (by simp) hfm2]

theorem fuel_le_len (fuel : Nat) :
    (∀ j, jvalFuel j ≤ fuel → jvalFuel j ≤ (stringifyJVal j).length + 1)
    ∧ (∀ es, es ≠ [] → elemsFuel es ≤ fuel →
        elemsFuel es ≤ (stringifyElems es).length + 2)
    ∧ (∀ ms, ms ≠ [] → membersFuel ms ≤ fuel →
        membersFuel ms ≤ (stringifyMembers ms).length + 2) := by
  induction fuel with
  | zero =>
    refine ⟨?_, ?_, ?_⟩
    · intro j hf
      have := jvalFuel_pos j
      omega
    · intro es hne hf
      have := elemsFuel_pos es hne
      omega
    · intro ms hne hf
      have := membersFuel_pos ms hne
      omega
  | succ fuel ih =>
    obtain ⟨ih1, ih2, ih3⟩ := ih
    refine ⟨?_, ?_, ?_⟩
    · intro j hf
      cases j with
      | str s => simp [jvalFuel]
      | num n => simp [jvalFuel]
      | bool b => simp [jvalFuel]
      | null => simp [jvalFuel]
      | arr es =>
        cases es with
        | nil => simp [jvalFuel, elemsFuel]
        | cons e es2 =>
          have h1 : elemsFuel (e :: es2) ≤ fuel := by
            simp only [jvalFuel] at hf
            omega
          have h2 := ih2 (e :: es2) (by simp) h1
          have hlen : (stringifyJVal (.arr (e :: es2))).length
              = (stringifyElems (e :: es2)).length + 2 := by
            simp [stringifyJVal]
          simp only [jvalFuel]
          omega
      | obj ms =>
        cases ms with
        | nil => simp [jvalFuel, membersFuel]
        | cons m ms2 =>
          have h1 : membersFuel (m :: ms2) ≤ fuel := by
            simp only [jvalFuel] at hf
            omega
          have h2 := ih3 (m :: ms2) (by simp) h1
          have hlen : (stringifyJVal (.obj (m :: ms2))).length
              = (stringifyMembers (m :: ms2)).length + 2 := by
            simp [stringifyJVal]
          simp only [jvalFuel]
          omega
    · intro es hne hf
      cases es with
      | nil => exact absurd rfl hne
      | cons e es2 =>
        have h1 : jvalFuel e ≤ fuel := by
          simp only [elemsFuel] at hf
          omega
        have h2 := ih1 e h1
        cases es2 with
        | nil =>
          have hlen : (stringifyElems [e]).length = (stringifyJVal e).length := by
            simp [stringifyElems]
          simp only [elemsFuel]
          omega
        | cons e2 es3 =>
          have h3 : elemsFuel (e2 :: es3) ≤ fuel := by
            simp only [elemsFuel] at hf ⊢
            omega
          have h4 := ih2 (e2 :: es3) (by simp) h3
          have hlen : (stringifyElems (e :: e2 :: es3)).length
              = (stringifyJVal e).length + 1 + (stringifyElems (e2 :: es3)).length := by
            simp [stringifyElems]
            omega
          simp only [elemsFuel] at *
          omega
    · intro ms hne hf
      cases ms with
      | nil => exact absurd rfl hne
      | cons m ms2 =>
        have h1 : jvalFuel m.2 ≤ fuel := by
          simp only [membersFuel] at hf
          omega
        have h2 := ih1 m.2 h1
        cases ms2 with
        | nil =>
          have hlen : (stringifyMembers [m]).length
              = (escapeStr m.1).length + 3 + (stringifyJVal m.2).length := by
            simp [stringifyMembers]
            omega
          simp only [membersFuel]
          omega
        | cons m2 ms3 =>
          have h3 : membersFuel (m2 :: ms3) ≤ fuel := by
            simp only [membersFuel] at hf ⊢
            omega
          have h4 := ih3 (m2 :: ms3) (by simp) h3
          have hlen : (stringifyMembers (m :: m2 :: ms3)).length
              = (escapeStr m.1).length + 3 + (stringifyJVal m.2).length + 1
                + (stringifyMembers (m2 :: ms3)).length := by
            simp [stringifyMembers]
            omega
          simp only [membersFuel] at *
          omega

theorem jsonParse_stringifyJVal (j : JVal) : jsonParse (stringifyJVal j) = some j := by
  have hb := (fuel_le_len (jvalFuel j)).1 j le_rfl
  have h := (parse_stringify ((stringifyJVal j).length + 1)).1 j [] (by omega) headNotDigit_nil
  rw [List.append_nil] at h
  unfold jsonParse
  rw [h]
  simp

theorem hexChar_ne_nlc (m : Nat) (h : m < 16) : hexChar m ≠ nlc := by
  interval_cases m <;> decide

theorem escapeChar_no_nl (c : Char) : nlc ∉ escapeChar c := by
  unfold escapeChar
  split_ifs with h1 h2 h3 h4 h5 h6 h7 h8
  · decide
  · decide
  · decide
  · decide
  · decide
  · decide
  · decide
  · intro hm
    simp only [List.mem_cons, List.not_mem_nil, or_false] at hm
    rcases hm with hm | hm | hm | hm | hm | hm
    · exact absurd hm.symm (by decide)
    · exact absurd hm.symm (by decide)
    · exact absurd hm.symm (by decide)
    · exact absurd hm.symm (by decide)
    · exact (hexChar_ne_nlc _ (by omega) hm.symm)
    · exact (hexChar_ne_nlc _ (by omega) hm.symm)
  · intro hm
    simp only [List.mem_singleton] at hm
    subst hm
    revert h8
    simp [show nlc.toNat = 10 from by decide]

theorem escapeStr_no_nl (s : JStr) : nlc ∉ escapeStr s := by
  unfold escapeStr
  intro hm
  rw [List.mem_flatten] at hm
  obtain ⟨l, hl, hml⟩ := hm
  rw [List.mem_map] at hl
  obtain ⟨c, -, rfl⟩ := hl
  exact escapeChar_no_nl c hml

theorem natToChars_no_nl (n : Nat) : nlc ∉ natToChars n := by
  intro hm
  have := natToChars_all_digits n nlc hm
  revert this
  decide

theorem stringify_no_nl (fuel : Nat) :
    (∀ j, jvalFuel j ≤ fuel → nlc ∉ stringifyJVal j)
    ∧ (∀ es, es ≠ [] → elemsFuel es ≤ fuel → nlc ∉ stringifyElems es)
    ∧ (∀ ms, ms ≠ [] → membersFuel ms ≤ fuel → nlc ∉ stringifyMembers ms) := by
  induction fuel with
  | zero =>
    refine ⟨?_, ?_, ?_⟩
    · intro j hf
      have := jvalFuel_pos j
      omega
    · intro es hne hf
      have := elemsFuel_pos es hne
      omega
    · intro ms hne hf
      have := membersFuel_pos ms hne
      omega
  | succ fuel ih =>
    obtain ⟨ih1, ih2, ih3⟩ := ih
    refine ⟨?_, ?_, ?_⟩
    · intro j hf
      cases j with
      | str s =>
        show nlc ∉ qm :: escapeStr s ++ [qm]
        intro hm
        simp only [List.cons_append, List.mem_cons, List.mem_append,
          List.mem_singleton] at hm
        rcases hm with hm | hm | hm
        · exact absurd hm (by decide)
        · exact escapeStr_no_nl s hm
        · exact absurd hm (by decide)
      | num n =>
        show nlc ∉ intToChars n
        unfold intToChars
        split
        · intro hm
          simp only [List.mem_cons] at hm
          rcases hm with hm | hm
          · exact absurd hm (by decide)
          · exact natToChars_no_nl _ hm
        · exact natToChars_no_nl _
      | bool b => cases b <;> decide
      | null => decide
      | arr es =>
        show nlc ∉ '[' :: stringifyElems es ++ [']']
        intro hm
        simp only [List.cons_append, List.mem_cons, List.mem_append,
          List.mem_singleton] at hm
        rcases hm with hm | hm | hm
        · exact absurd hm (by decide)
        · rcases List.eq_nil_or_concat es with rfl | -
          · simp [stringifyElems] at hm
          · have hne : es ≠ [] := by
              rintro rfl
              simp [stringifyElems] at hm
            have hfe : elemsFuel es ≤ fuel := by
              simp only [jvalFuel] at hf
              omega
            exact ih2 es hne hfe hm
        · exact absurd hm (by decide)
      | obj ms =>
        show nlc ∉ lbr :: stringifyMembers ms ++ [rbr]
        intro hm
        simp only [List.cons_append, List.mem_cons, List.mem_append,
          List.mem_singleton] at hm
        rcases hm with hm | hm | hm
        · exact absurd hm (by decide)
        · have hne : ms ≠ [] := by
            rintro rfl
            simp [stringifyMembers] at hm
          have hfm : membersFuel ms ≤ fuel := by
            simp only [jvalFuel] at hf
            omega
          exact ih3 ms hne hfm hm
        · exact absurd hm (by decide)
    · intro es hne hf
      cases es with
      | nil => exact absurd rfl hne
      | cons e es2 =>
        have h1 : jvalFuel e ≤ fuel := by
          simp only [elemsFuel] at hf
          omega
        cases es2 with
        | nil =>
          show nlc ∉ stringifyElems [e]
          rw [show stringifyElems [e] = stringifyJVal e from rfl]
          exact ih1 e h1
        | cons e2 es3 =>
          have h3 : elemsFuel (e2 :: es3) ≤ fuel := by
            simp only [elemsFuel] at hf ⊢
            omega
          show nlc ∉ stringifyJVal e ++ ',' :: stringifyElems (e2 :: es3)
          intro hm
          simp only [List.mem_append, List.mem_cons] at hm
          rcases hm with hm | hm | hm
          · exact ih1 e h1 hm
          · exact absurd hm (by decide)
          · exact ih2 (e2 :: es3) (by simp) h3 hm
    · intro ms hne hf
      cases ms with
      | nil => exact absurd rfl hne
      | cons m ms2 =>
        have h1 : jvalFuel m.2 ≤ fuel := by
          simp only [membersFuel] at hf
          omega
        have hkey : nlc ∉ qm :: escapeStr m.1 ++ qm :: ':' :: stringifyJVal m.2 := by
          intro hm
          simp only [List.cons_append, List.mem_cons, List.mem_append] at hm
          rcases hm with hm | hm | hm | hm | hm
          · exact absurd hm (by decide)
          · exact escapeStr_no_nl m.1 hm
          · exact absurd hm (by decide)
          · exact absurd hm (by decide)
          · exact ih1 m.2 h1 hm
        cases ms2 with
        | nil => exact hkey
        | cons m2 ms3 =>
          have h3 : membersFuel (m2 :: ms3) ≤ fuel := by
            simp only [membersFuel] at hf ⊢
            omega
          show nlc ∉ (qm :: escapeStr m.1 ++ qm :: ':' :: stringifyJVal m.2)
              ++ ',' :: stringifyMembers (m2 :: ms3)
          intro hm
          simp only [List.mem_append, List.mem_cons] at hm
          rcases hm with hm | hm | hm
          · refine hkey ?_
            simp only [List.cons_append, List.mem_cons, List.mem_append]
            tauto
          · exact absurd hm (by decide)
          · exact ih3 (m2 :: ms3) (by simp) h3 hm

theorem stringifyJVal_no_nl (j : JVal) : nlc ∉ stringifyJVal j :=
  (stringify_no_nl (jvalFuel j)).1 j le_rfl

theorem goodHead_not_ws {c : Char} (h : goodHead c = true) : isJsWs c = false := by
  simp only [goodHead, Bool.or_eq_true, decide_eq_true_iff] at h
  rcases h with ((((((h | h) | h) | h) | h) | h) | h) | h
  all_goals first
  | (subst h; decide)
  | (exact (digit_ne_special h).2.2.2.2.2.2.2.2.2.2.2)

theorem jsTrim_cons_ne (c : Char) (r : JStr) (h : isJsWs c = false) :
    jsTrim (c :: r) ≠ [] := by
  unfold jsTrim
  rw [List.dropWhile_cons_of_neg (by simp [h])]
  intro hcontra
  rw [List.reverse_eq_nil_iff, List.dropWhile_eq_nil_iff] at hcontra
  have := hcontra c (by simp)
  rw [h] at this
  exact Bool.false_ne_true this

theorem stringify_trim_ne (j : JVal) : jsTrim (stringifyJVal j) ≠ [] := by
  obtain ⟨c, cs, hc, hgood⟩ := stringify_goodHead j
  rw [hc]
  exact jsTrim_cons_ne c cs (goodHead_not_ws hgood)

theorem splitOnChar_sep_append (sep : Char) (x rest : JStr) (hx : sep ∉ x) :
    splitOnChar sep (x ++ sep :: rest) = x :: splitOnChar sep rest := by
  induction x with
  | nil =>
    rw [List.nil_append, splitOnChar.eq_def]
    simp
  | cons c xs ih =>
    have hc : ¬ c = sep := by
      intro h
      exact hx (by simp [h])
    have hxs : sep ∉ xs := fun h => hx (by simp [h])
    rw [List.cons_append, splitOnChar.eq_def]
    simp only [hc, ite_false, if_false]
    rw [ih hxs]

theorem splitOnChar_join (lines : List JStr) (hne : lines ≠ [])
    (hnl : ∀ l ∈ lines, nlc ∉ l) :
    splitOnChar nlc (joinWith [nlc] lines ++ [nlc]) = lines ++ [[]] := by
  induction lines with
  | nil => exact absurd rfl hne
  | cons x rest ih =>
    cases rest with
    | nil =>
      rw [show joinWith [nlc] [x] ++ [nlc] = x ++ nlc :: [] from by simp [joinWith]]
      rw [splitOnChar_sep_append nlc x [] (hnl x (by simp))]
      rfl
    | cons y ys =>
      rw [show joinWith [nlc] (x :: y :: ys) ++ [nlc]
          = x ++ nlc :: (joinWith [nlc] (y :: ys) ++ [nlc]) from by
        simp [joinWith, List.append_assoc]]
      rw [splitOnChar_sep_append nlc x _ (hnl x (by simp))]
      rw [ih (by simp) (fun l hl => hnl l (by simp [hl]))]
      rfl

theorem mapM_jsonParse_stringify (js : List JVal) :
    (js.map stringifyJVal).mapM jsonParse = some js := by
  induction js with
  | nil => rfl
  | cons j js ih =>
    rw [List.map_cons, List.mapM_cons, jsonParse_stringifyJVal j, ih]
    rfl

/-- C2: the line-delimited formatter emits one JSON-serialized record per line
with a trailing newline always present (the empty record list serializes to a
single newline character), and for every nonempty record list parsing the
formatted output returns exactly the records' JSON forms. -/
theorem formatPostsToJSONL_roundtrip (posts : List Post) (h : posts ≠ []) :
    formatPostsToJSONL [] = [nlc]
    ∧ splitOnChar nlc (formatPostsToJSONL posts)
        = posts.map (fun p => stringifyJVal (postToJVal p)) ++ [[]]
    ∧ parseJSONL (formatPostsToJSONL posts) = some (posts.map postToJVal) := by
  have hlines : ∀ l ∈ posts.map (fun p => stringifyJVal (postToJVal p)), nlc ∉ l := by
    intro l hl
    rw [List.mem_map] at hl
    obtain ⟨p, -, rfl⟩ := hl
    exact stringifyJVal_no_nl _
  have hmapne : posts.map (fun p => stringifyJVal (postToJVal p)) ≠ [] := by
    simp [h]
  have hsplit : splitOnChar nlc (formatPostsToJSONL posts)
      = posts.map (fun p => stringifyJVal (postToJVal p)) ++ [[]] := by
    unfold formatPostsToJSONL
    exact splitOnChar_join _ hmapne hlines
  refine ⟨rfl, hsplit, ?_⟩
  unfold parseJSONL
  rw [hsplit, List.filter_append]
  have hkeep : (posts.map (fun p => stringifyJVal (postToJVal p))).filter
      (fun line => !(jsTrim line).isEmpty)
      = posts.map (fun p => stringifyJVal (postToJVal p)) := by
    rw [List.filter_eq_self]
    intro l hl
    rw [List.mem_map] at hl
    obtain ⟨p, -, rfl⟩ := hl
    have h2 := stringify_trim_ne (postToJVal p)
    simp only [Bool.not_eq_eq_eq_not, Bool.not_true, Bool.not_eq_true']
    rw [← Bool.not_eq_true, List.isEmpty_iff]
    exact h2
  rw [hkeep]
  have hdrop : ([([] : JStr)]).filter (fun line => !(jsTrim line).isEmpty) = [] := rfl
  rw [hdrop, List.append_nil]
  rw [show posts.map (fun p => stringifyJVal (postToJVal p))
      = (posts.map postToJVal).map stringifyJVal from by rw [List.map_map]; rfl]
  exact mapM_jsonParse_stringify _

/-- Witness for C2 at a concrete two-record list: one record with an empty
replies list and one with a populated replies list. -/
theorem formatPostsToJSONL_roundtrip_witness :
    ([samplePost1, samplePost2] : List Post) ≠ []
    ∧ (formatPostsToJSONL [] = [nlc]
      ∧ splitOnChar nlc (formatPostsToJSONL [samplePost1, samplePost2])
          = [samplePost1, samplePost2].map (fun p => stringifyJVal (postToJVal p)) ++ [[]]
      ∧ parseJSONL (formatPostsToJSONL [samplePost1, samplePost2])
          = some ([samplePost1, samplePost2].map postToJVal)) :=
  ⟨by simp, formatPostsToJSONL_roundtrip [samplePost1, samplePost2] (by simp)⟩

/-- C9: a stage-2 or stage-3 completion response that fails to parse as JSON
does not raise: stage 2 yields the tag-set-shaped error placeholder carrying
the raw response text, and stage 3 yields a one-element array carrying the
raw response text. -/
theorem analysis_parse_fallback (response : JStr) (h : jsonParse response = none) :
    extractTagsResult response
        = JVal.obj [("error".data, JVal.str "Failed to parse tags".data),
            ("raw".data, JVal.str response)]
    ∧ generateOpportunitiesResult response
        = JVal.arr [JVal.obj [("error".data, JVal.str "Failed to parse opportunities".data),
            ("raw".data, JVal.str response)]] := by
  unfold extractTagsResult generateOpportunitiesResult
  rw [h]
  exact ⟨rfl, rfl⟩

/-- Witness for C9 at the concrete unparseable response `"no json here"`. -/
theorem analysis_parse_fallback_witness :
    jsonParse "no json here".data = none
    ∧ (extractTagsResult "no json here".data
        = JVal.obj [("error".data, JVal.str "Failed to parse tags".data),
            ("raw".data, JVal.str "no json here".data)]
      ∧ generateOpportunitiesResult "no json here".data
        = JVal.arr [JVal.obj [("error".data, JVal.str "Failed to parse opportunities".data),
            ("raw".data, JVal.str "no json here".data)]]) :=
  ⟨rfl, analysis_parse_fallback "no json here".data rfl⟩

theorem lookup_none_iff (x : JStr) (l : List (JStr × JStr)) :
    (l.lookup x).isNone = true ↔ x ∉ l.map Prod.fst := by
  induction l with
  | nil => simp [List.lookup]
  | cons kv l ih =>
    obtain ⟨k, v⟩ := kv
    simp only [List.lookup, List.map_cons, List.mem_cons]
    by_cases h : x = k
    · subst h
      simp
    · have hb : (x == k) = false := beq_eq_false_iff_ne.mpr h
      simp [hb, ih, h]

theorem objMerge_keys (e n : List (JStr × JStr)) (x : JStr) :
    x ∈ (objMerge e n).map Prod.fst ↔ x ∈ e.map Prod.fst ∨ x ∈ n.map Prod.fst := by
  unfold objMerge
  rw [List.map_append, List.mem_append]
  have h1 : (e.map fun kv =>
      match n.lookup kv.1 with
      | some v => (kv.1, v)
      | none => kv).map Prod.fst = e.map Prod.fst := by
    rw [List.map_map]
    apply List.map_congr_left
    intro kv _
    cases hnl : n.lookup kv.1 <;> simp [hnl]
  rw [h1]
  constructor
  · rintro (h | h)
    · exact Or.inl h
    · right
      rw [List.mem_map] at h ⊢
      obtain ⟨kv, hkv, rfl⟩ := h
      exact ⟨kv, (List.mem_filter.mp hkv).1, rfl⟩
  · rintro (h | h)
    · exact Or.inl h
    · by_cases he : x ∈ e.map Prod.fst
      · exact Or.inl he
      · right
        rw [List.mem_map] at h ⊢
        obtain ⟨kv, hkv, rfl⟩ := h
        refine ⟨kv, List.mem_filter.mpr ⟨hkv, ?_⟩, rfl⟩
        exact (lookup_none_iff kv.1 e).mpr he

theorem map_fst_stamp (ids : List JStr) (now : JStr) :
    ((ids.map (fun id => (id, now))).map Prod.fst) = ids := by
  induction ids with
  | nil => rfl
  | cons a ids ih => simp only [List.map_cons, ih]

theorem loadDedupeIndex_save (d : DiskState) (ids : List JStr) (now : JStr) (x : JStr) :
    x ∈ loadDedupeIndex (saveDedupeIndex d ids now) ↔ x ∈ loadDedupeIndex d ∨ x ∈ ids := by
  unfold saveDedupeIndex loadDedupeIndex
  rw [objMerge_keys, map_fst_stamp]
  cases d <;> simp

/-- C3: after `add(a); add(b); save()` on a tracker, a fresh load of the same
directory contains `a`, `b`, and every id present on disk before the save
(save is a read-merge-write of the union); `reset()` followed by a fresh
load gives the empty set; load never raises and returns the empty set when
the document is absent or unreadable. -/
theorem dedupe_persistence (d : DiskState) (a b now : JStr) :
    (∀ x, x ∈ loadDedupeIndex ((((createDedupeTracker d).add a).add b).save d now)
        ↔ (x = a ∨ x = b ∨ x ∈ loadDedupeIndex d))
    ∧ loadDedupeIndex (resetDedupeIndex d) = []
    ∧ loadDedupeIndex DiskState.absent = []
    ∧ loadDedupeIndex DiskState.corrupt = [] := by
  refine ⟨?_, rfl, rfl, rfl⟩
  intro x
  have hadd1 : (createDedupeTracker d).add a
      = { existingIds := loadDedupeIndex d, newIds := [a] } := by
    unfold createDedupeTracker DedupeTracker.add
    simp [List.contains]
  by_cases hba : b = a
  · subst hba
    have hadd2 : ({ existingIds := loadDedupeIndex d, newIds := [b] } : DedupeTracker).add b
        = { existingIds := loadDedupeIndex d, newIds := [b] } := by
      unfold DedupeTracker.add
      rw [if_pos (by simp [List.contains])]
    rw [hadd1, hadd2]
    unfold DedupeTracker.save
    rw [if_neg (by simp)]
    rw [loadDedupeIndex_save]
    simp only [List.mem_singleton]
    tauto
  · have hadd2 : ({ existingIds := loadDedupeIndex d, newIds := [a] } : DedupeTracker).add b
        = { existingIds := loadDedupeIndex d, newIds := [a, b] } := by
      unfold DedupeTracker.add
      have hbeq : (b == a) = false := beq_eq_false_iff_ne.mpr hba
      rw [if_neg (by simp [List.contains, hbeq, hba])]
      rfl
    rw [hadd1, hadd2]
    unfold DedupeTracker.save
    rw [if_neg (by simp)]
    rw [loadDedupeIndex_save]
    simp only [List.mem_cons, List.mem_singleton, List.not_mem_nil, or_false]
    tauto

theorem foldl_add_existing (adds : List JStr) (t : DedupeTracker) :
    (adds.foldl DedupeTracker.add t).existingIds = t.existingIds := by
  induction adds generalizing t with
  | nil => rfl
  | cons a adds ih =>
    rw [List.foldl_cons, ih]
    unfold DedupeTracker.add
    split <;> rfl

/-- C8: `has(x)` is true exactly when `x` was in the set loaded from disk at
construction — ids passed to `add` during the current run are never visible
to `has` — and `save()` persists only the buffered new ids, performing no
disk write at all when the buffer is empty. -/
theorem dedupeTracker_spec (d : DiskState) (adds : List JStr) (x now : JStr)
    (t : DedupeTracker) (hne : t.newIds ≠ []) :
    ((adds.foldl DedupeTracker.add (createDedupeTracker d)).has x = true
        ↔ x ∈ loadDedupeIndex d)
    ∧ (createDedupeTracker d).save d now = d
    ∧ (∀ y, y ∈ loadDedupeIndex (t.save d now)
        ↔ (y ∈ t.newIds ∨ y ∈ loadDedupeIndex d)) := by
  refine ⟨?_, rfl, ?_⟩
  · unfold DedupeTracker.has
    rw [foldl_add_existing]
    show (loadDedupeIndex d).contains x = true ↔ x ∈ loadDedupeIndex d
    exact List.elem_iff
  · intro y
    unfold DedupeTracker.save
    rw [if_neg (by simpa [List.isEmpty_iff] using hne)]
    rw [loadDedupeIndex_save]
    tauto

/-- Witness for C8 at a concrete disk state, add list, and nonempty buffer. -/
theorem dedupeTracker_spec_witness :
    (["n1".data] : List JStr) ≠ []
    ∧ (((["n1".data, "n2".data].foldl DedupeTracker.add
          (createDedupeTracker (DiskState.doc [("e1".data, "t0".data)]))).has "n1".data = true
        ↔ "n1".data ∈ loadDedupeIndex (DiskState.doc [("e1".data, "t0".data)]))
      ∧ (createDedupeTracker (DiskState.doc [("e1".data, "t0".data)])).save
          (DiskState.doc [("e1".data, "t0".data)]) "t1".data
          = DiskState.doc [("e1".data, "t0".data)]
      ∧ (∀ y, y ∈ loadDedupeIndex
            ((DedupeTracker.mk ["e1".data] ["n1".data]).save
              (DiskState.doc [("e1".data, "t0".data)]) "t1".data)
          ↔ (y ∈ (["n1".data] : List JStr)
            ∨ y ∈ loadDedupeIndex (DiskState.doc [("e1".data, "t0".data)])))) :=
  ⟨by simp, dedupeTracker_spec (DiskState.doc [("e1".data, "t0".data)])
    ["n1".data, "n2".data] "n1".data "t1".data
    (DedupeTracker.mk ["e1".data] ["n1".data]) (by simp)⟩

theorem withRetryGo_all_fail {α : Type} (fn : Nat → Except JsError α)
    (errs : Nat → JsError) (base : Nat)
    (hfn : ∀ k, fn k = .error (errs k)) (hret : ∀ k, isRetryable (errs k) = true) :
    ∀ rem attempt, withRetryGo fn base attempt rem
      = (.error (errs (attempt + rem)),
         (List.range rem).map (fun i => (attempt + i + 1, base * 2 ^ (attempt + i)))) := by
  intro rem
  induction rem with
  | zero =>
    intro attempt
    rw [withRetryGo, hfn attempt]
    simp
  | succ rem ih =>
    intro attempt
    rw [withRetryGo, hfn attempt]
    simp only [hret attempt, if_true, ite_true]
    rw [ih (attempt + 1)]
    simp only [List.range_succ_eq_map, List.map_cons, List.map_map, Prod.mk.injEq,
      List.cons.injEq]
    refine ⟨by rw [show attempt + 1 + rem = attempt + (rem + 1) from by omega],
      ⟨by simp, ?_⟩⟩
    apply List.map_congr_left
    intro i _
    simp only [Function.comp_apply, Nat.succ_eq_add_one, Prod.mk.injEq]
    refine ⟨by omega, by rw [show attempt + 1 + i = attempt + (i + 1) from by omega]⟩

theorem withRetryGo_events {α : Type} (fn : Nat → Except JsError α) (base : Nat) :
    ∀ rem attempt, ∀ ev ∈ (withRetryGo fn base attempt rem).2,
      ∃ e, fn (ev.1 - 1) = .error e ∧ isRetryable e = true
        ∧ ev.2 = base * 2 ^ (ev.1 - 1) := by
  intro rem
  induction rem with
  | zero =>
    intro attempt ev hev
    rw [withRetryGo] at hev
    cases hf : fn attempt with
    | ok v => rw [hf] at hev; simp at hev
    | error e => rw [hf] at hev; simp at hev
  | succ rem ih =>
    intro attempt ev hev
    rw [withRetryGo] at hev
    cases hf : fn attempt with
    | ok v => rw [hf] at hev; simp at hev
    | error e =>
      rw [hf] at hev
      by_cases hr : isRetryable e = true
      · simp only [hr, if_true, ite_true, List.mem_cons] at hev
        rcases hev with rfl | hev
        · exact ⟨e, by simpa using hf, hr, by simp⟩
        · exact ih (attempt + 1) ev hev
      · have hrb : isRetryable e = false := by simpa using hr
        simp only [hrb, Bool.false_eq_true, if_false, ite_false] at hev
        simp at hev

/-- C4: a failure is retried only when classified retryable (429, rate-limit
message, or 5xx) with the delay doubling each attempt from the base delay; a
non-retryable failure propagates immediately without invoking the hook; a
retryable failure that exhausts the retry budget propagates the last failure
after hook calls with doubling delays; an operation failing twice with a 429
then succeeding returns the success value and invokes the hook exactly twice
with strictly increasing delays. -/
theorem withRetry_spec {α : Type} (base maxR : Nat) (v : α) (eBad e429 : JsError)
    (errs : Nat → JsError)
    (hb : 0 < base) (hm : 2 ≤ maxR) (hbad : isRetryable eBad = false)
    (h429 : e429.statusCode = some 429) (herrs : ∀ k, isRetryable (errs k) = true) :
    (∀ fn : Nat → Except JsError α, fn 0 = .error eBad →
        withRetry fn maxR base = (.error eBad, []))
    ∧ withRetry (fun k => (.error (errs k) : Except JsError α)) maxR base
        = (.error (errs maxR), (List.range maxR).map (fun k => (k + 1, base * 2 ^ k)))
    ∧ (withRetry (fun k => if k < 2 then (.error e429 : Except JsError α) else .ok v) maxR base
        = (.ok v, [(1, base), (2, 2 * base)]) ∧ base < 2 * base)
    ∧ (∀ fn : Nat → Except JsError α, ∀ ev ∈ (withRetry fn maxR base).2,
        ∃ e, fn (ev.1 - 1) = .error e ∧ isRetryable e = true
          ∧ ev.2 = base * 2 ^ (ev.1 - 1)) := by
  refine ⟨?_, ?_, ⟨?_, by omega⟩, ?_⟩
  · intro fn h0
    unfold withRetry
    rw [withRetryGo, h0]
    cases maxR with
    | zero => simp
    | succ m => simp [hbad]
  · have h := withRetryGo_all_fail (fun k => (.error (errs k) : Except JsError α))
      errs base (fun k => rfl) herrs maxR 0
    unfold withRetry
    rw [h]
    simp
  · have h429r : isRetryable e429 = true := by
      unfold isRetryable
      rw [h429]
      simp
    cases maxR with
    | zero => omega
    | succ m0 =>
      cases m0 with
      | zero => omega
      | succ m =>
        unfold withRetry
        simp [withRetryGo, h429r, Nat.mul_comm]
  · intro fn ev hev
    exact withRetryGo_events fn base maxR 0 ev hev

/-- Witness for C4: base delay 1000, budget 3, a 429 error, a non-retryable
400 error, and a constant 503 error sequence. -/
theorem withRetry_spec_witness :
    (0 : Nat) < 1000 ∧ 2 ≤ 3
    ∧ isRetryable ⟨some 400, some "bad request".data⟩ = false
    ∧ (⟨some 429, none⟩ : JsError).statusCode = some 429
    ∧ isRetryable ⟨some 503, none⟩ = true
    ∧ withRetry (fun k => if k < 2 then (.error ⟨some 429, none⟩ : Except JsError Nat)
          else .ok 7) 3 1000
        = (.ok 7, [(1, 1000), (2, 2 * 1000)]) :=
  ⟨by decide, by decide, by decide, rfl, by decide,
    (withRetry_spec 1000 3 7 ⟨some 400, some "bad request".data⟩ ⟨some 429, none⟩
      (fun _ => ⟨some 503, none⟩) (by decide) (by decide) (by decide) rfl
      (fun _ => (by decide : isRetryable ⟨some 503, none⟩ = true))).2.2.1.1⟩

/-- C5: a numeric date bound strictly between 1e9 and 1e12 is taken as Unix
seconds; a numeric bound at or above 1e12 is taken as Unix milliseconds
(divided by 1000); any other (string) bound is handed to the platform's
calendar-date parser; an unparseable bound filters nothing on that bound;
and the date comparison against the record's creation instant is inclusive. -/
theorem parseDateToUnix_spec (dateParseMs : JStr → Option Int) :
    (∀ n : Int, 1000000000 < n → n < 1000000000000 →
        parseDateToUnix dateParseMs (.num n) = some n)
    ∧ (∀ n : Int, 1000000000000 ≤ n →
        parseDateToUnix dateParseMs (.num n) = some (Int.fdiv n 1000))
    ∧ (∀ s : JStr, jsToNumber (.str s) = none → s ≠ [] →
        parseDateToUnix dateParseMs (.str s)
          = (dateParseMs s).map (fun t => Int.fdiv t 1000))
    ∧ (∀ s : JStr, jsToNumber (.str s) = none → dateParseMs s = none → ∀ posts,
        applyFilters dateParseMs posts
            { minScore := none, minComments := none, after := .str s, before := .null } = posts
        ∧ applyFilters dateParseMs posts
            { minScore := none, minComments := none, after := .null, before := .str s } = posts)
    ∧ (∀ (p : RawPost) (n : Int), p.created_utc = some n →
        1000000000 < n → n < 1000000000000 →
        p ∈ applyFilters dateParseMs [p]
          { minScore := none, minComments := none, after := .num n, before := .num n }) := by
  have hnull : parseDateToUnix dateParseMs .null = none := rfl
  have hsec : ∀ n : Int, 1000000000 < n → n < 1000000000000 →
      parseDateToUnix dateParseMs (.num n) = some n := by
    intro n h1 h2
    unfold parseDateToUnix
    rw [if_neg (by simp [jsFieldFalsy]; omega)]
    show (if 1000000000 < n ∧ n < 1000000000000 then some n else _) = some n
    rw [if_pos ⟨h1, h2⟩]
  refine ⟨hsec, ?_, ?_, ?_, ?_⟩
  · intro n h
    unfold parseDateToUnix
    rw [if_neg (by simp [jsFieldFalsy]; omega)]
    by_cases h2 : 1000000000000 < n
    · show (if 1000000000 < n ∧ n < 1000000000000 then some n
          else if 1000000000000 < n then some (Int.fdiv n 1000) else _)
        = some (Int.fdiv n 1000)
      rw [if_neg (by omega), if_pos h2]
    · have hn : n = 1000000000000 := by omega
      subst hn
      norm_num [jsToNumber, dateTimeMs]
  · intro s hnum hne
    unfold parseDateToUnix
    rw [if_neg (by simp [jsFieldFalsy, List.isEmpty_iff, hne])]
    rw [hnum]
    rfl
  · intro s hnum hd posts
    have hne : s ≠ [] := by
      intro h
      subst h
      simp [jsToNumber, jsTrim] at hnum
    have hnone : parseDateToUnix dateParseMs (.str s) = none := by
      unfold parseDateToUnix
      rw [if_neg (by simp [jsFieldFalsy, List.isEmpty_iff, hne])]
      rw [hnum]
      show (dateTimeMs dateParseMs (.str s)).map _ = none
      show (dateParseMs s).map _ = none
      rw [hd]
      rfl
    constructor
    · unfold applyFilters
      rw [hnone, hnull]
    · unfold applyFilters
      rw [hnone, hnull]
  · intro p n hc h1 h2
    unfold applyFilters
    rw [hsec n h1 h2]
    simp [hc]

/-- Witness for C5 with the always-failing calendar parser, a seconds-range
numeric bound, a milliseconds-range numeric bound, an unparseable string
bound, and a record sitting exactly on the bound. -/
theorem parseDateToUnix_spec_witness :
    ((1000000000 : Int) < 1500000000 ∧ (1500000000 : Int) < 1000000000000
      ∧ parseDateToUnix (fun _ => none) (.num 1500000000) = some 1500000000)
    ∧ ((1000000000000 : Int) ≤ 1700000000123
      ∧ parseDateToUnix (fun _ => none) (.num 1700000000123)
          = some (Int.fdiv 1700000000123 1000))
    ∧ (jsToNumber (.str "never-a-date".data) = none
      ∧ applyFilters (fun _ => none)
          [{ id := .null, title := .null, author := .inr .null, created_utc := some 1500000000,
             score := none, num_comments := none, url := .null, permalink := .null,
             selftext := .null }]
          { minScore := none, minComments := none, after := .str "never-a-date".data,
            before := .null }
        = [{ id := .null, title := .null, author := .inr .null, created_utc := some 1500000000,
             score := none, num_comments := none, url := .null, permalink := .null,
             selftext := .null }])
    ∧ ({ id := .null, title := .null, author := .inr .null, created_utc := some 1500000000,
         score := none, num_comments := none, url := .null, permalink := .null,
         selftext := .null } : RawPost)
        ∈ applyFilters (fun _ => none)
          [{ id := .null, title := .null, author := .inr .null, created_utc := some 1500000000,
             score := none, num_comments := none, url := .null, permalink := .null,
             selftext := .null }]
          { minScore := none, minComments := none, after := .num 1500000000,
            before := .num 1500000000 } := by
  obtain ⟨h1, h2, h3, h4, h5⟩ := parseDateToUnix_spec (fun _ => none)
  refine ⟨⟨by decide, by decide, h1 1500000000 (by decide) (by decide)⟩,
    ⟨by decide, h2 1700000000123 (by decide)⟩,
    ⟨by decide, ?_⟩, ?_⟩
  · exact (h4 "never-a-date".data (by decide) rfl _).1
  · exact h5 _ 1500000000 rfl (by decide) (by decide)

/-- C6: a present minimum-score or minimum-comment-count criterion keeps
exactly the records whose (0-defaulted) value is at least the bound; a record
with score exactly equal to the bound is kept; a record one below is dropped;
absent criteria reject nothing. -/
theorem applyFilters_bounds (dateParseMs : JStr → Option Int) (posts : List RawPost)
    (m : Int) (p : RawPost) :
    applyFilters dateParseMs posts
        { minScore := some m, minComments := none, after := .null, before := .null }
      = posts.filter (fun q => decide (q.score.getD 0 ≥ m))
    ∧ applyFilters dateParseMs posts
        { minScore := none, minComments := some m, after := .null, before := .null }
      = posts.filter (fun q => decide (q.num_comments.getD 0 ≥ m))
    ∧ (p.score = some m →
        applyFilters dateParseMs [p]
          { minScore := some m, minComments := none, after := .null, before := .null } = [p])
    ∧ (p.score = some (m - 1) →
        applyFilters dateParseMs [p]
          { minScore := some m, minComments := none, after := .null, before := .null } = [])
    ∧ applyFilters dateParseMs posts
        { minScore := none, minComments := none, after := .null, before := .null } = posts := by
  have h1g : ∀ ps : List RawPost, applyFilters dateParseMs ps
      { minScore := some m, minComments := none, after := .null, before := .null }
      = ps.filter (fun q => decide (q.score.getD 0 ≥ m)) := fun ps => rfl
  refine ⟨h1g posts, rfl, ?_, ?_, rfl⟩
  · intro hs
    rw [h1g [p]]
    have hd : (decide (p.score.getD 0 ≥ m)) = true := by
      rw [hs]
      simp
    simp [List.filter, hd]
  · intro hs
    rw [h1g [p]]
    have hd : (decide (p.score.getD 0 ≥ m)) = false := by
      rw [hs]
      simp only [Option.getD_some]
      rw [decide_eq_false_iff_not]
      omega
    simp [List.filter, hd]

/-- Witness for C6 at a concrete record with score exactly at the bound 10
and one with score one below it. -/
theorem applyFilters_bounds_witness :
    applyFilters (fun _ => none)
        [{ id := .null, title := .null, author := .inr .null, created_utc := none,
           score := some 10, num_comments := none, url := .null, permalink := .null,
           selftext := .null }]
        { minScore := some 10, minComments := none, after := .null, before := .null }
      = [{ id := .null, title := .null, author := .inr .null, created_utc := none,
           score := some 10, num_comments := none, url := .null, permalink := .null,
           selftext := .null }]
    ∧ applyFilters (fun _ => none)
        [{ id := .null, title := .null, author := .inr .null, created_utc := none,
           score := some 9, num_comments := none, url := .null, permalink := .null,
           selftext := .null }]
        { minScore := some 10, minComments := none, after := .null, before := .null } = []
    ∧ applyFilters (fun _ => none) ([] : List RawPost)
        { minScore := none, minComments := none, after := .null, before := .null } = [] :=
  ⟨(applyFilters_bounds (fun _ => none) [] 10
      { id := .null, title := .null, author := .inr .null, created_utc := none,
        score := some 10, num_comments := none, url := .null, permalink := .null,
        selftext := .null }).2.2.1 rfl,
   (applyFilters_bounds (fun _ => none) [] 10
      { id := .null, title := .null, author := .inr .null, created_utc := none,
        score := some 9, num_comments := none, url := .null, permalink := .null,
        selftext := .null }).2.2.2.1 (by decide),
   (applyFilters_bounds (fun _ => none) [] 10
      { id := .null, title := .null, author := .inr .null, created_utc := none,
        score := some 10, num_comments := none, url := .null, permalink := .null,
        selftext := .null }).2.2.2.2⟩

/-- C10: every record produced by the harvest loop is field-normalized: a
null or undefined source field becomes the empty string (never null); score
and comment count default to 0 when absent; the creation time is either the
ISO rendering of the source timestamp or the empty string; and the replies
list is empty when reply expansion was not requested or produced nothing. -/
theorem normalizePost_spec (iso : Int → JStr) (sr : JStr) (p : RawPost)
    (inc : Bool) (exp : Except JStr (List RComment)) :
    ((p.id = .null ∨ p.id = .undef) → (normalizePost iso sr p inc exp).id = [])
    ∧ ((p.title = .null ∨ p.title = .undef) → (normalizePost iso sr p inc exp).title = [])
    ∧ ((p.author = .inr .null ∨ p.author = .inr .undef) →
        (normalizePost iso sr p inc exp).author = [])
    ∧ ((p.url = .null ∨ p.url = .undef) → (normalizePost iso sr p inc exp).url = [])
    ∧ ((p.permalink = .null ∨ p.permalink = .undef) →
        (normalizePost iso sr p inc exp).permalink = [])
    ∧ ((p.selftext = .null ∨ p.selftext = .undef) →
        (normalizePost iso sr p inc exp).selftext = [])
    ∧ (normalizePost iso sr p inc exp).score = p.score.getD 0
    ∧ (normalizePost iso sr p inc exp).numComments = p.num_comments.getD 0
    ∧ ((normalizePost iso sr p inc exp).created = []
        ∨ ∃ t, p.created_utc = some t ∧ (normalizePost iso sr p inc exp).created = iso t)
    ∧ (inc = false → (normalizePost iso sr p inc exp).comments = [])
    ∧ (exp = .ok [] → (normalizePost iso sr p inc exp).comments = []) := by
  refine ⟨?_, ?_, ?_, ?_, ?_, ?_, ?_, ?_, ?_, ?_, ?_⟩
  · rintro (h | h) <;> cases inc <;> cases exp <;> simp [normalizePost, h, safeText]
  · rintro (h | h) <;> cases inc <;> cases exp <;> simp [normalizePost, h, safeText]
  · rintro (h | h) <;> cases inc <;> cases exp <;> simp [normalizePost, h, safeText, authorText]
  · rintro (h | h) <;> cases inc <;> cases exp <;> simp [normalizePost, h, safeText]
  · rintro (h | h) <;> cases inc <;> cases exp <;> simp [normalizePost, h, safeText]
  · rintro (h | h) <;> cases inc <;> cases exp <;> simp [normalizePost, h, safeText]
  · cases inc <;> cases exp <;> simp [normalizePost]
  · cases inc <;> cases exp <;> simp [normalizePost]
  · have hcr : (normalizePost iso sr p inc exp).created
        = (match p.created_utc with
           | some t => if t ≠ 0 then iso t else []
           | none => []) := by
      cases inc <;> cases exp <;> simp [normalizePost]
    rw [hcr]
    cases hc : p.created_utc with
    | none => exact Or.inl rfl
    | some t =>
      by_cases ht : t ≠ 0
      · exact Or.inr ⟨t, rfl, by simp [ht]⟩
      · left
        simp [ht]
  · intro h
    subst h
    cases exp <;> simp [normalizePost]
  · intro h
    subst h
    cases inc <;> simp [normalizePost]

/-- Witness for C10 at a raw post whose fields are all null and absent, with
comment expansion not requested. -/
theorem normalizePost_spec_witness :
    (normalizePost (fun _ => []) "startups".data
        { id := .null, title := .null, author := .inr .null, created_utc := none,
          score := none, num_comments := none, url := .null, permalink := .null,
          selftext := .null } false (.ok [])).id = []
    ∧ (normalizePost (fun _ => []) "startups".data
        { id := .null, title := .null, author := .inr .null, created_utc := none,
          score := none, num_comments := none, url := .null, permalink := .null,
          selftext := .null } false (.ok [])).score = 0
    ∧ (normalizePost (fun _ => []) "startups".data
        { id := .null, title := .null, author := .inr .null, created_utc := none,
          score := none, num_comments := none, url := .null, permalink := .null,
          selftext := .null } false (.ok [])).comments = [] := by
  obtain ⟨h1, -, -, -, -, -, h7, -, -, h10, -⟩ := normalizePost_spec (fun _ => [])
    "startups".data
    { id := .null, title := .null, author := .inr .null, created_utc := none,
      score := none, num_comments := none, url := .null, permalink := .null,
      selftext := .null } false (.ok [])
  exact ⟨h1 (Or.inl rfl), h7, h10 rfl⟩

theorem startsWithChars_append_self (pat rest : JStr) :
    startsWithChars pat (pat ++ rest) = true := by
  induction pat with
  | nil => rfl
  | cons p ps ih => simp [startsWithChars, ih]

theorem containsSub_prefix (pat rest : JStr) : containsSub pat (pat ++ rest) = true := by
  cases hp : pat ++ rest with
  | nil =>
    have : pat = [] := by
      cases pat
      · rfl
      · simp at hp
    subst this
    rfl
  | cons c r =>
    rw [containsSub, ← hp, startsWithChars_append_self]
    simp

theorem containsSub_append_right (pat l1 l2 : JStr) (h : containsSub pat l2 = true) :
    containsSub pat (l1 ++ l2) = true := by
  induction l1 with
  | nil => exact h
  | cons c r ih =>
    rw [List.cons_append, containsSub]
    rw [ih]
    simp

theorem containsSub_joinWith_mem (sep : JStr) (lines : List JStr) (l : JStr)
    (hl : l ∈ lines) : containsSub l (joinWith sep lines) = true := by
  induction lines with
  | nil => cases hl
  | cons x rest ih =>
    cases rest with
    | nil =>
      simp only [List.mem_singleton] at hl
      subst hl
      rw [joinWith]
      have := containsSub_prefix l []
      simpa using this
    | cons y ys =>
      rw [joinWith]
      rcases List.mem_cons.mp hl with rfl | hl2
      · rw [List.append_assoc]
        exact containsSub_prefix l _
      · rw [List.append_assoc]
        exact containsSub_append_right l x _
          (containsSub_append_right l sep _ (ih hl2))

theorem startsWith_take_of_append (pat a b : JStr)
    (h : startsWithChars pat (a ++ b) = true) :
    startsWithChars (pat.take a.length) a = true := by
  induction pat generalizing a with
  | nil =>
    cases a with
    | nil => rfl
    | cons c cs => simp [List.take, startsWithChars]
  | cons p ps ih =>
    cases a with
    | nil => rfl
    | cons c cs =>
      rw [List.cons_append] at h
      rw [startsWithChars] at h
      rw [Bool.and_eq_true] at h
      simp only [List.length_cons, List.take_succ_cons, startsWithChars, Bool.and_eq_true]
      exact ⟨h.1, ih cs h.2⟩

theorem containsSub_nil_pat (l : JStr) : containsSub [] l = true := by
  induction l with
  | nil => rfl
  | cons c r ih =>
    rw [containsSub]
    simp [startsWithChars]

theorem startsWithChars_mono (pat x y : JStr) (h : startsWithChars pat x = true) :
    startsWithChars pat (x ++ y) = true := by
  induction pat generalizing x with
  | nil => rfl
  | cons p ps ih =>
    cases x with
    | nil => simp [startsWithChars] at h
    | cons c cs =>
      rw [startsWithChars, Bool.and_eq_true] at h
      rw [List.cons_append, startsWithChars, Bool.and_eq_true]
      exact ⟨h.1, ih cs h.2⟩

theorem containsSub_append_left (pat l1 l2 : JStr) (h : containsSub pat l1 = true) :
    containsSub pat (l1 ++ l2) = true := by
  induction l1 with
  | nil =>
    cases pat with
    | nil => exact containsSub_nil_pat l2
    | cons p ps => simp [containsSub, startsWithChars] at h
  | cons c r ih =>
    rw [containsSub, Bool.or_eq_true] at h
    rw [List.cons_append, containsSub, Bool.or_eq_true]
    rcases h with h | h
    · exact Or.inl (by rw [← List.cons_append]; exact startsWithChars_mono pat (c :: r) l2 h)
    · exact Or.inr (ih h)

theorem containsSub_trans_mem (pat x sep : JStr) (lines : List JStr)
    (hx : x ∈ lines) (hpat : containsSub pat x = true) :
    containsSub pat (joinWith sep lines) = true := by
  induction lines with
  | nil => cases hx
  | cons x0 rest ih =>
    cases rest with
    | nil =>
      simp only [List.mem_singleton] at hx
      subst hx
      exact hpat
    | cons y ys =>
      rw [joinWith]
      rcases List.mem_cons.mp hx with rfl | hx2
      · rw [List.append_assoc]
        exact containsSub_append_left pat x _ hpat
      · rw [List.append_assoc]
        exact containsSub_append_right _ _ _
          (containsSub_append_right _ _ _ (ih hx2))

set_option maxRecDepth 40000 in
/-- C7 counterexample: for a concrete record whose body is empty, the
plain-text rendering does not contain the literal "(no body)" anywhere — the
placeholder the code actually emits is "(no selftext)". -/
theorem formatPostsToText_no_body_counterexample :
    containsSub "(no body)".data
        (formatPostsToText
          [{ id := "abc".data, subreddit := "startups".data, title := "T".data,
             author := "u".data, created := [], score := 1, numComments := 0,
             url := "u1".data, permalink := "p1".data, selftext := [],
             comments := [], commentsError := none }]
          { subreddit := "startups".data, listing := "hot".data, time := "week".data,
            limit := 1, includeComments := false, commentLimit := 0, search := none }
          "2024-01-01T00:00:00.000Z".data) = false
    ∧ containsSub "(no selftext)".data
        (formatPostsToText
          [{ id := "abc".data, subreddit := "startups".data, title := "T".data,
             author := "u".data, created := [], score := 1, numComments := 0,
             url := "u1".data, permalink := "p1".data, selftext := [],
             comments := [], commentsError := none }]
          { subreddit := "startups".data, listing := "hot".data, time := "week".data,
            limit := 1, includeComments := false, commentLimit := 0, search := none }
          "2024-01-01T00:00:00.000Z".data) = true := by
  decide

/-- C7 (amended): for every record whose body text is empty the plain-text
rendering of that record contains the literal placeholder "(no selftext)" —
not the spec's "(no body)", see the counterexample — and for a run with no
search query the header contains a `postsHarvested:` line equal to the
record count, omits the search line, and contains a listing line instead. -/
theorem formatPostsToText_spec (posts : List Post) (o : TextOpts) (now : JStr)
    (p : Post) (total idx : Nat)
    (hsearch : o.search = none) (hbody : jsTrim p.selftext = [])
    (hinc : o.includeComments = false) :
    containsSub "(no selftext)".data (postSection total idx p) = true
    ∧ containsSub "(no selftext)".data (formatPostsToText [p] o now) = true
    ∧ "postsHarvested: ".data ++ natToChars posts.length ∈ headerLines posts o now
    ∧ (∀ line ∈ headerLines posts o now, startsWithChars "search: ".data line = false)
    ∧ startsWithChars "listing: ".data (searchOrListingLine o) = true
    ∧ searchOrListingLine o ∈ headerLines posts o now := by
  have hsec : ∀ t i : Nat, containsSub "(no selftext)".data (postSection t i p) = true := by
    intro t i
    unfold postSection
    apply containsSub_joinWith_mem
    simp [hbody]
  refine ⟨hsec total idx, ?_, ?_, ?_, ?_, ?_⟩
  · have hshape : formatPostsToText [p] o now
        = joinWith [nlc] [joinWith [nlc] (headerLines [p] o now), postSection 1 0 p] := by
      unfold formatPostsToText
      simp [hinc]
    rw [hshape]
    exact containsSub_trans_mem _ (postSection 1 0 p) [nlc] _ (by simp) (hsec 1 0)
  · simp [headerLines]
  · intro line hline
    simp only [headerLines, searchOrListingLine, hsearch, List.mem_cons,
      List.not_mem_nil, or_false] at hline
    have hgen : ∀ (a rest2 : JStr), line = a ++ rest2 →
        startsWithChars ("search: ".data.take a.length) a = false →
        startsWithChars "search: ".data line = false := by
      intro a rest2 hl hfalse
      apply Bool.eq_false_iff.mpr
      intro habs
      rw [hl] at habs
      have := startsWith_take_of_append "search: ".data a rest2 habs
      rw [hfalse] at this
      exact Bool.false_ne_true this
    rcases hline with rfl | rfl | rfl | rfl | rfl | rfl | rfl | rfl | rfl
    · decide
    · exact hgen "subreddit: r/".data o.subreddit rfl (by decide)
    · unfold listingLine
      rw [List.append_assoc]
      exact hgen "listing: ".data _ rfl (by decide)
    · exact hgen "limit: ".data _ rfl (by decide)
    · exact hgen "includeComments: ".data _ rfl (by decide)
    · exact hgen "commentLimit: ".data _ rfl (by decide)
    · exact hgen "postsHarvested: ".data _ rfl (by decide)
    · exact hgen "exportedAt: ".data _ rfl (by decide)
    · decide
  · simp only [searchOrListingLine, hsearch]
    unfold listingLine
    rw [List.append_assoc]
    exact startsWithChars_append_self "listing: ".data _
  · simp [headerLines]

/-- Witness for C7 (amended) at a concrete run with no search query and a
record whose body is empty. -/
theorem formatPostsToText_spec_witness :
    containsSub "(no selftext)".data
      (postSection 1 0
        { id := "abc".data, subreddit := "startups".data, title := "T".data,
          author := "u".data, created := [], score := 1, numComments := 0,
          url := "u1".data, permalink := "p1".data, selftext := [],
          comments := [], commentsError := none }) = true
    ∧ "postsHarvested: ".data ++ natToChars 1
        ∈ headerLines
          [{ id := "abc".data, subreddit := "startups".data, title := "T".data,
             author := "u".data, created := [], score := 1, numComments := 0,
             url := "u1".data, permalink := "p1".data, selftext := [],
             comments := [], commentsError := none }]
          { subreddit := "startups".data, listing := "hot".data, time := "week".data,
            limit := 1, includeComments := false, commentLimit := 0, search := none }
          "2024-01-01T00:00:00.000Z".data := by
  obtain ⟨h1, -, h3, -, -, -⟩ := formatPostsToText_spec
    [{ id := "abc".data, subreddit := "startups".data, title := "T".data,
       author := "u".data, created := [], score := 1, numComments := 0,
       url := "u1".data, permalink := "p1".data, selftext := [],
       comments := [], commentsError := none }]
    { subreddit := "startups".data, listing := "hot".data, time := "week".data,
      limit := 1, includeComments := false, commentLimit := 0, search := none }
    "2024-01-01T00:00:00.000Z".data
    { id := "abc".data, subreddit := "startups".data, title := "T".data,
      author := "u".data, created := [], score := 1, numComments := 0,
      url := "u1".data, permalink := "p1".data, selftext := [],
      comments := [], commentsError := none }
    1 0 rfl rfl rfl
  exact ⟨h1, h3⟩
